import Mathlib

/-!
Verification of the Sims-4-Mod-Powertools merge core against its
natural-language specification.

Shallow embedding conventions used throughout this file:
* JavaScript strings are modelled as lists of Unicode code points
  (`List Nat`) or lists of characters (`List Char`), iterated the way a
  JavaScript `for..of` loop iterates code points.
* The JavaScript runtime string library (`String.prototype.normalize("NFC")`
  and `String.prototype.toLowerCase`) is external to the repository; it is
  modelled here by the identity on already-composed text and by the ASCII
  case mapping, which is the behaviour of those builtins on the ASCII range.
* The S4TK container codec (`@s4tk/models`) is an external collaborator; it
  is modelled by explicit function parameters so that the theorems quantify
  over every codec behaviour the adapter code can observe.
* The filesystem is modelled as a map from path to optional byte content,
  and fallible steps take an explicit failure point so that all-or-nothing
  properties can be stated per failure point.
-/

/-! ## Embedding of src/util/determinism.ts: stableCompare -/

/-- Ascii priority limit from determinism.ts: `ASCII_PRIORITY_LIMIT = 0x7f`. -/
def ASCII_PRIORITY_LIMIT : Nat := 0x7f

/-- Model of the external JavaScript `toLowerCase` at the level of a single
code point, restricted to the ASCII case mapping (the external Unicode
tables are not repository code). Uppercase ASCII letters map to lowercase,
everything else is unchanged; the folded form of one character is returned
as a one-element list the way `buildSortKey` iterates the folded string. -/
def foldedCodePoints (c : Nat) : List Nat :=
  if 65 ≤ c ∧ c ≤ 90 then [c + 32] else [c]

/-- Sort key record from determinism.ts (`interface SortKey`). -/
structure SortKey where
  encoded : List Nat
  normalizedCodePoints : List Nat
deriving DecidableEq

/-- Embedding of `buildSortKey` (determinism.ts lines 143-164): the input is
NFC-normalized (modelled as the identity on the code-point list) and each
character contributes an ASCII-priority flag, the code points of its folded
form, and the original code point. -/
def buildSortKey (raw : List Nat) : SortKey :=
  { encoded := raw.flatMap (fun c =>
      (if c ≤ ASCII_PRIORITY_LIMIT then 0 else 1) :: (foldedCodePoints c ++ [c]))
  , normalizedCodePoints := raw }

/-- First nonzero difference of two lists compared index by index up to the
shorter length, as computed by the `for` loops of `stableCompare` and
`compareCodePoints`; zero when all compared positions agree. -/
def firstDelta : List Nat → List Nat → Int
  | x :: xs, y :: ys => if x = y then firstDelta xs ys else (x : Int) - (y : Int)
  | _, _ => 0

/-- Embedding of `compareCodePoints` (determinism.ts lines 177-187). -/
def compareCodePoints (left right : List Nat) : Int :=
  let d := firstDelta left right
  if d ≠ 0 then d else (left.length : Int) - (right.length : Int)

/-- Embedding of `stableCompare` (determinism.ts lines 31-52): equal strings
compare equal at once; otherwise the encoded sort keys are compared up to
the shorter length, falling back to the normalized code-point length and
finally to a lexicographic comparison of the normalized code points. -/
def stableCompare (left right : List Nat) : Int :=
  if left = right then 0
  else
    let leftKey := buildSortKey left
    let rightKey := buildSortKey right
    let d := firstDelta leftKey.encoded rightKey.encoded
    if d ≠ 0 then d
    else if leftKey.normalizedCodePoints.length ≠ rightKey.normalizedCodePoints.length then
      (leftKey.normalizedCodePoints.length : Int) - (rightKey.normalizedCodePoints.length : Int)
    else
      compareCodePoints leftKey.normalizedCodePoints rightKey.normalizedCodePoints

/-! ## Embedding of src/util/determinism.ts: normalizePath -/

/-- Path string modelled as a list of characters. -/
abbrev JStr := List Char

/-- Prefix information record from determinism.ts (`interface PathPrefixInfo`). -/
structure PathPrefixInfo where
  isUnc : Bool
  hasLeadingSlash : Bool
  drive : JStr
  driveIsAbsolute : Bool
  remainder : JStr
deriving DecidableEq

/-- Embedding of `normalizeUnicodeAndSlashes` (determinism.ts lines 246-248):
NFC normalization is modelled as the identity and every backslash is
replaced by a forward slash. -/
def normalizeUnicodeAndSlashes (path : JStr) : JStr :=
  path.map (fun c => if c = '\\' then '/' else c)

/-- Model of the JavaScript `replace(/^\/+/, "")`: drop every leading slash. -/
def dropLeadingSlashes : JStr → JStr
  | [] => []
  | c :: rest => if c = '/' then dropLeadingSlashes rest else c :: rest

/-- Prepend a character to the first segment of a split result. -/
def consHead (c : Char) : List JStr → List JStr
  | seg :: segs => (c :: seg) :: segs
  | [] => [[c]]

/-- Model of the JavaScript `String.prototype.split("/")`. -/
def splitOnSlash : JStr → List JStr
  | [] => [[]]
  | c :: rest =>
    if c = '/' then [] :: splitOnSlash rest
    else consHead c (splitOnSlash rest)

/-- Model of `segments.join("/")`. -/
def joinSlash : List JStr → JStr
  | [] => []
  | [s] => s
  | s :: rest => s ++ '/' :: joinSlash rest

/-- True for ASCII letters, the character class of the drive regex
`/^[A-Za-z]:/` in `analyzePathPrefix`. -/
def isAsciiLetter (c : Char) : Bool :=
  ('A' ≤ c ∧ c ≤ 'Z') ∨ ('a' ≤ c ∧ c ≤ 'z')

/-- Model of `toUpperCase` on a drive letter (the regex restricts it to an
ASCII letter, where the external JavaScript builtin is the ASCII mapping). -/
def upperChar (c : Char) : Char :=
  if 'a' ≤ c ∧ c ≤ 'z' then Char.ofNat (c.toNat - 32) else c

/-- Embedding of `stripExtendedLengthPrefix` (determinism.ts lines 261-273):
after slash normalization, a `//?/UNC/` prefix becomes a plain `//` UNC
prefix and a bare `//?/` prefix is removed. -/
def stripExtendedLengthPfx (path : JStr) : JStr :=
  let normalized := normalizeUnicodeAndSlashes path
  if ('/' :: '/' :: '?' :: '/' :: []).isPrefixOf normalized then
    if ('/' :: '/' :: '?' :: '/' :: 'U' :: 'N' :: 'C' :: '/' :: []).isPrefixOf normalized then
      '/' :: '/' :: normalized.drop 8
    else normalized.drop 4
  else normalized

/-- Slash phase of `analyzePathPrefix` (determinism.ts lines 301-312):
detects the UNC prefix (`//` followed by a non-slash) or a leading slash
run, returning (isUnc, hasLeadingSlash, working). -/
def slashPhase (path : JStr) : Bool × Bool × JStr :=
  match path with
  | '/' :: '/' :: c :: rest =>
    if c ≠ '/' then (true, false, c :: rest)
    else (false, true, dropLeadingSlashes path)
  | '/' :: _ => (false, true, dropLeadingSlashes path)
  | _ => (false, false, path)

/-- Drive phase of `analyzePathPrefix` (determinism.ts lines 314-328):
outside a UNC prefix, an ASCII drive letter followed by a colon is split
off (upper-cased) and a following slash makes the drive absolute,
returning (drive, driveIsAbsolute, remainder). -/
def drivePhase (isUnc : Bool) (working : JStr) : JStr × Bool × JStr :=
  if isUnc then ([], false, working)
  else
    match working with
    | a :: b :: rest =>
      if isAsciiLetter a ∧ b = ':' then
        match rest with
        | '/' :: _ => ([upperChar a, ':'], true, dropLeadingSlashes rest)
        | _ => ([upperChar a, ':'], false, rest)
      else ([], false, working)
    | _ => ([], false, working)

/-- Embedding of `analyzePathPrefix` (determinism.ts lines 296-331): detects
a UNC prefix (`//` followed by a non-slash), a leading slash run, and an
ASCII drive-letter prefix, returning the classified prefix and the
remainder with the prefix characters removed. -/
def analyzePathPrefixInfo (path : JStr) : PathPrefixInfo :=
  let slashInfo := slashPhase path
  let driveInfo := drivePhase slashInfo.1 slashInfo.2.2
  { isUnc := slashInfo.1
  , hasLeadingSlash := slashInfo.2.1
  , drive := driveInfo.1
  , driveIsAbsolute := driveInfo.2.1
  , remainder := driveInfo.2.2 }

/-- One step of the segment resolution loop of `resolvePathSegments`; the
accumulator keeps the resolved segments in reverse order so that the push
and pop operations of the source act on the list head. -/
def resolveSegsRev (allow : Bool) (acc : List JStr) : List JStr → List JStr
  | [] => acc
  | raw :: rest =>
    if raw = [] ∨ raw = ['.'] then resolveSegsRev allow acc rest
    else if raw = ['.', '.'] then
      match acc with
      | top :: accTail =>
        if top ≠ ['.', '.'] then resolveSegsRev allow accTail rest
        else if allow then resolveSegsRev allow (raw :: acc) rest
        else resolveSegsRev allow acc rest
      | [] =>
        if allow then resolveSegsRev allow [raw] rest
        else resolveSegsRev allow acc rest
    else resolveSegsRev allow (raw :: acc) rest

/-- Embedding of `resolvePathSegments` (determinism.ts lines 349-376):
splits the slash-normalized input on `/`, removes empty and `.` segments,
lets `..` pop the previous segment, and keeps an orphan `..` only when
`allowRelativeAboveRoot` is true. -/
def resolvePathSegments (path : JStr) (allow : Bool) : List JStr :=
  (resolveSegsRev allow [] (splitOnSlash (normalizeUnicodeAndSlashes path))).reverse

/-- Embedding of `rebuildNormalizedPath` (determinism.ts lines 395-426). -/
def rebuildNormalizedPath (pre : PathPrefixInfo) (segments : List JStr) : JStr :=
  if pre.isUnc then
    '/' :: '/' :: joinSlash segments
  else if pre.drive ≠ [] then
    if pre.driveIsAbsolute then pre.drive ++ '/' :: joinSlash segments
    else if segments = [] then pre.drive
    else pre.drive ++ joinSlash segments
  else if pre.hasLeadingSlash then
    '/' :: joinSlash segments
  else if segments = [] then ['.']
  else joinSlash segments

/-- Embedding of `normalizePath` (determinism.ts lines 99-111): the empty
string normalizes to `.`; otherwise the extended-length prefix is stripped,
the prefix is classified, the remainder is resolved into segments (orphan
`..` segments are kept only for fully relative paths), and the canonical
path is rebuilt. -/
def normalizePath (inputPath : JStr) : JStr :=
  if inputPath = [] then ['.']
  else
    let normalized := stripExtendedLengthPfx inputPath
    let pre := analyzePathPrefixInfo normalized
    let allow := !(pre.isUnc || pre.hasLeadingSlash || pre.driveIsAbsolute)
    rebuildNormalizedPath pre (resolvePathSegments pre.remainder allow)

/-! ## Embedding of src/util/fsx.ts: writeFileAtomic -/

/-- Filesystem modelled as a map from path to optional byte content. -/
abbrev FileSys := String → Option (List Nat)

/-- Pointwise filesystem update. -/
def fsSet (fs : FileSys) (p : String) (v : Option (List Nat)) : FileSys :=
  fun q => if q = p then v else fs q

/-- Failure points of `writeFileAtomic` (fsx.ts lines 17-45): the temp file
creation (`createTempFile`), the write plus fsync of the temp file, the
atomic rename, the directory fsync after the rename, or no failure. -/
inductive WriteStep where
  | tempCreate
  | writeTemp
  | rename
  | dirSync
  | allOk
deriving DecidableEq

/-- Embedding of `writeFileAtomic` (fsx.ts lines 17-45) over the filesystem
model, with an explicit failure point and an explicit temp path chosen by
`createTempFile` (the random suffix is external). Each failure point
returns the filesystem state the source leaves behind: a failed temp
creation changes nothing; a failed write or fsync of the temp file unlinks
the temp (`safeUnlink`) and rethrows; a failed rename leaves the temp in
place for diagnostics and the destination untouched (the rename is atomic);
a failed directory fsync happens after the rename, so the destination
already holds the complete new content. -/
def writeFileAtomic (fs : FileSys) (targetPath tempPath : String)
    (content : List Nat) (step : WriteStep) : FileSys × Except String Unit :=
  if step = .tempCreate then
    (fs, .error "Unable to create temp file")
  else
    let fsTemp := fsSet fs tempPath (some [])
    if step = .writeTemp then
      (fsSet fsTemp tempPath none, .error "Failed to write temp file")
    else
      let fsWritten := fsSet fsTemp tempPath (some content)
      if step = .rename then
        (fsWritten, .error "Failed to replace target atomically")
      else
        let fsRenamed := fsSet (fsSet fsWritten tempPath none) targetPath (some content)
        if step = .dirSync then
          (fsRenamed, .error "Failed to fsync directory")
        else
          (fsRenamed, .ok ())

/-! ## Embedding of src/core/taxonomy.ts: the S4TK adapter -/

/-- Entry of an S4TK package: a (type, group, instance) key and a value.
The hex-string rendering of type ids in the source is modelled by the
numeric type id itself. -/
structure S4Entry where
  keyType : Nat
  keyGroup : Nat
  keyInstance : Nat
  value : List Nat
deriving DecidableEq

/-- Model of the external `S4TKPackage`: the list of its entries, which is
all the adapter code observes of it. -/
abbrev S4TKPackageM := List S4Entry

/-- Wrapper record from taxonomy.ts (`interface S4Package`). -/
structure S4Package where
  internal : S4TKPackageM
  resourceCount : Nat
  estimatedSize : Nat
deriving DecidableEq

/-- Statistics record from taxonomy.ts (`interface PackageStats`); unique
types are an insertion-ordered association list the way the source builds a
`Map` keyed by type id. -/
structure PackageStats where
  resourceCount : Nat
  uniqueTypes : List (Nat × Nat)
  estimatedSize : Nat
deriving DecidableEq

/-- Insertion-ordered counting used by `calculatePackageStats`. -/
def bumpType (acc : List (Nat × Nat)) (t : Nat) : List (Nat × Nat) :=
  match acc with
  | [] => [(t, 1)]
  | (u, n) :: rest => if u = t then (u, n + 1) :: rest else (u, n) :: bumpType rest t

/-- Embedding of `calculatePackageStats` (taxonomy.ts lines 216-264): the
resource count is the entry count, the unique types are counted in first
occurrence order, and the estimated size is `entries.length * 1024`. -/
def calculatePackageStats (pkg : S4TKPackageM) : PackageStats :=
  { resourceCount := pkg.length
  , uniqueTypes := pkg.foldl (fun acc e => bumpType acc e.keyType) []
  , estimatedSize := pkg.length * 1024 }

/-- Embedding of `createEmptyPackage` (taxonomy.ts lines 76-87). -/
def createEmptyPackage : S4Package :=
  { internal := [], resourceCount := 0, estimatedSize := 0 }

/-- Errors of the adapter (taxonomy.ts lines 51-71): `S4TKError` and its
subclasses `PackageLoadError` and `PackageCorruptionError`. -/
inductive S4TKErr where
  | s4tk (message : String)
  | packageLoad (filePath : String)
  | packageCorruption (filePath : String)
deriving DecidableEq

/-- Model of the external `@s4tk/models` API surface the adapter calls:
`Package.from` decodes one buffer and `Package.merge` merges a list of
buffers; both may throw, modelled as `Except`. The theorems below quantify
over every such behaviour. -/
structure S4TKLib where
  fromBytes : List Nat → Except String S4TKPackageM
  mergeBuffers : List (List Nat) → Except String S4TKPackageM

/-- Embedding of `loadPackage` (taxonomy.ts lines 92-120): a missing file
or a decode failure aborts with a `PackageLoadError` or, when the decoder
reports a non-package file, a `PackageCorruptionError`; on success the
package is wrapped together with its stats. -/
def loadPackage (lib : S4TKLib) (fs : FileSys) (filePath : String) :
    Except S4TKErr S4Package :=
  match fs filePath with
  | none => .error (.packageLoad filePath)
  | some buffer =>
    match lib.fromBytes buffer with
    | .error msg =>
      if msg = "Not a package file" then .error (.packageCorruption filePath)
      else .error (.packageLoad filePath)
    | .ok pkg =>
      let stats := calculatePackageStats pkg
      .ok { internal := pkg
          , resourceCount := stats.resourceCount
          , estimatedSize := stats.estimatedSize }

/-- Read every listed file, in order; `none` when any read fails. -/
def readAllFiles (fs : FileSys) : List String → Option (List (List Nat))
  | [] => some []
  | p :: rest =>
    match fs p with
    | none => none
    | some buffer =>
      match readAllFiles fs rest with
      | none => none
      | some buffers => some (buffer :: buffers)

/-- Embedding of `mergePackages` (taxonomy.ts lines 289-316): an empty path
list returns a fresh empty package; otherwise every file is read, the
buffers are merged by the external `S4TKPackage.merge`, and any failure of
a read or of the merge is caught and rethrown as a single `S4TKError`, so
no partial result is ever returned. -/
def mergePackages (lib : S4TKLib) (fs : FileSys) (filePaths : List String) :
    Except S4TKErr S4Package :=
  if filePaths = [] then .ok createEmptyPackage
  else
    match readAllFiles fs filePaths with
    | none => .error (.s4tk "Failed to merge packages")
    | some buffers =>
      match lib.mergeBuffers buffers with
      | .error _ => .error (.s4tk "Failed to merge packages")
      | .ok merged =>
        let stats := calculatePackageStats merged
        .ok { internal := merged
            , resourceCount := stats.resourceCount
            , estimatedSize := stats.estimatedSize }

/-- Embedding of `appendAllResources` (taxonomy.ts lines 125-154): every
entry of the source package is added to the target with `_makeEntry`; a
per-entry failure is caught, logged as a console warning, and skipped, so
the call completes even when entries are dropped. The set of entries the
external `_makeEntry` accepts is the parameter `canAdd`. Afterwards the
target stats are recalculated. -/
def appendAllResources (canAdd : S4Entry → Bool) (target source : S4Package) :
    S4Package :=
  let newEntries := target.internal ++ source.internal.filter canAdd
  let stats := calculatePackageStats newEntries
  { internal := newEntries
  , resourceCount := stats.resourceCount
  , estimatedSize := stats.estimatedSize }

/-! ## Merge / Rollover / Metadata-Unmerge engine

Modelled from the spec: the core engine of spec sections 3, 4.1 and 4.2
(`mergeGroup`, rollover, descriptors, the embedded metadata record, and
`unmerge`) is missing from src/ — `src/basic/merge.ts` is a TODO stub and
the adapter only wraps the external S4TK merge — so the definitions in this
section follow the words of the spec. Per spec section 9 the in-band
metadata record is modelled as a tagged variant over ordinary records and
the metadata record, disambiguated by the reserved sentinel key. -/

/-- Modelled from the spec: ResourceKey, the fixed-width (Type, Group,
Instance) triple of spec section 3. -/
structure ResourceKey where
  typeId : Nat
  group : Nat
  instanceId : Nat
deriving DecidableEq

/-- Modelled from the spec: ResourceRecord, a key plus payload bytes. -/
structure ResourceRecord where
  key : ResourceKey
  payload : List Nat
deriving DecidableEq

/-- Modelled from the spec: Container, an ordered sequence of records. -/
abbrev Container := List ResourceRecord

/-- Modelled from the spec: the collision policy of MergeOptions. -/
inductive CollisionPolicy where
  | keepLast
  | keepFirst
  | shadowOriginal
deriving DecidableEq

/-- Modelled from the spec: MergeOptions with the deduplication flag, the
collision policy and the optional part size cap. -/
structure MergeOptions where
  dedup : Bool
  policy : CollisionPolicy
  maxPartSizeBytes : Option Nat
deriving DecidableEq

/-- Modelled from the spec: the reserved sentinel key, a fixed Type id with
Group 0 and Instance 0; the Type id 0x4D455447 ("METG") comes from the
repository task card for merge metadata. -/
def sentinelKey : ResourceKey :=
  { typeId := 0x4D455447, group := 0, instanceId := 0 }

/-- Modelled from the spec: the fixed per-record overhead constant of the
incremental size estimate of spec section 4.1 step 1. -/
def RECORD_OVERHEAD : Nat := 32

/-- Estimated encoded size of one record: payload bytes plus overhead. -/
def estRecordSize (r : ResourceRecord) : Nat :=
  r.payload.length + RECORD_OVERHEAD

/-- Estimated encoded size of a container. -/
def estContainerSize (c : Container) : Nat :=
  (c.map estRecordSize).sum

/-- Modelled from the spec: the per-retained-resource payload hash of the
OriginalPackageDescriptor, used for later integrity checks. -/
def payloadHash (p : List Nat) : Nat :=
  p.foldl (fun acc b => acc * 31 + b + 1) 5381

/-- Modelled from the spec: OriginalPackageDescriptor of spec section 3 —
per-input bookkeeping with pre-dedup resource count, kept and overwritten
counts, contiguous index ranges into the output part record sequence, and
a key plus payload hash per retained record. -/
structure OriginalPackageDescriptor where
  basename : String
  resourceCount : Nat
  keptCount : Nat
  overwrittenCount : Nat
  ranges : List (Nat × Nat)
  recordHashes : List (ResourceKey × Nat)
  overwrittenKeys : List ResourceKey
deriving DecidableEq

/-- Supported metadata format version. -/
def METADATA_VERSION : Nat := 1

/-- Modelled from the spec: MergeMetadataRecord payload of spec section 3 —
format version, producing tool identity, descriptors and effective options;
volatile fields such as wall-clock time are excluded by the spec. -/
structure MergeMetadata where
  version : Nat
  tool : String
  descriptors : List OriginalPackageDescriptor
  options : MergeOptions
deriving DecidableEq

/-- Modelled from the spec, section 9: a merged record is a tagged variant
over an ordinary resource record and the metadata record, disambiguated by
the reserved sentinel key. -/
inductive MergedRecord where
  | ordinary (r : ResourceRecord)
  | metadata (m : MergeMetadata)
deriving DecidableEq

/-- Key of a merged record; the metadata record sits at the sentinel key. -/
def MergedRecord.key : MergedRecord → ResourceKey
  | .ordinary r => r.key
  | .metadata _ => sentinelKey

/-- The ordinary resource record of a merged record, when it is one. -/
def MergedRecord.ordinaryRec : MergedRecord → Option ResourceRecord
  | .ordinary r => some r
  | .metadata _ => none

/-- Modelled from the spec: one output part, the record sequence of one
merged container (ordinary records followed by its metadata record). -/
abbrev OutputPart := List MergedRecord

/-- Modelled from the spec: fatal merge errors of spec section 7. -/
inductive MergeError where
  | inputUnreadable (name : String)
  | policyConflict
deriving DecidableEq

/-- Rollover grouping loop (spec section 4.1 steps 1 and 2): the running
estimated size of the current part is kept incrementally; before the next
input is appended, a part that is nonempty and would exceed the cap is
finalized and the whole next input starts the new part. The accumulator
keeps the current part inputs in reverse order. -/
def planPartsGo (cap : Nat) (cur : List (String × Container)) (curSize : Nat) :
    List (String × Container) → List (List (String × Container))
  | [] => if cur = [] then [] else [cur.reverse]
  | inp :: rest =>
    let s := estContainerSize inp.2
    if cur ≠ [] ∧ curSize + s > cap then
      cur.reverse :: planPartsGo cap [inp] s rest
    else
      planPartsGo cap (inp :: cur) (curSize + s) rest

/-- Rollover grouping: with no configured cap all inputs form one part;
with a cap the greedy loop above is used. -/
def planParts : Option Nat → List (String × Container) → List (List (String × Container))
  | none, inputs => if inputs = [] then [] else [inputs]
  | some cap, inputs => planPartsGo cap [] 0 inputs

/-- Outcome of appending one record (spec section 4.1 steps 3 and 4). -/
inductive AppendOutcome where
  | added
  | dedupSkip
  | keepFirstSkip
  | replaced (idx : Nat)
deriving DecidableEq

/-- Index of the first already-appended record with the given key. -/
def findKeyIdx : List ResourceRecord → ResourceKey → Option Nat
  | [], _ => none
  | r :: rest, k =>
    if r.key = k then some 0
    else (findKeyIdx rest k).map (fun j => j + 1)

/-- Modelled from the spec: appending one record to the current part under
the deduplication flag and the collision policy. With no key collision the
record is appended; an identical key and payload under deduplication is
retained once; keep-first drops the later duplicate; keep-last lets the
later bytes win in place; shadow-original retains both. -/
def appendOne (opts : MergeOptions) (recs : List ResourceRecord)
    (r : ResourceRecord) : List ResourceRecord × AppendOutcome :=
  match findKeyIdx recs r.key with
  | none => (recs ++ [r], .added)
  | some j =>
    if opts.dedup ∧ (recs.getD j { key := r.key, payload := [] }).payload = r.payload then
      (recs, .dedupSkip)
    else
      match opts.policy with
      | .keepFirst => (recs, .keepFirstSkip)
      | .keepLast => (recs.set j r, .replaced j)
      | .shadowOriginal => (recs ++ [r], .added)

/-- Per-input bookkeeping accumulated while its records are appended. -/
structure InputAccum where
  kept : Nat
  overwritten : Nat
  addedCount : Nat
  hashes : List (ResourceKey × Nat)
  lostKeys : List ResourceKey
deriving DecidableEq

/-- Modelled from the spec: under keep-last the earlier input whose record
lost a collision marks that key as overwritten in its own descriptor; the
first earlier descriptor that retained the key is marked. -/
def markOverwritten (descs : List OriginalPackageDescriptor) (k : ResourceKey) :
    List OriginalPackageDescriptor :=
  match descs with
  | [] => []
  | d :: rest =>
    if d.recordHashes.any (fun kh => kh.1 = k) then
      { d with overwrittenCount := d.overwrittenCount + 1
             , overwrittenKeys := d.overwrittenKeys ++ [k] } :: rest
    else d :: markOverwritten rest k

/-- One record step of the per-input append loop: the part records, the
descriptors of earlier inputs, and the bookkeeping of the current input. -/
def appendRecordStep (opts : MergeOptions)
    (st : List ResourceRecord × List OriginalPackageDescriptor × InputAccum)
    (r : ResourceRecord) :
    List ResourceRecord × List OriginalPackageDescriptor × InputAccum :=
  let (recs2, outcome) := appendOne opts st.1 r
  let acc := st.2.2
  match outcome with
  | .added =>
    (recs2, st.2.1,
     { acc with kept := acc.kept + 1, addedCount := acc.addedCount + 1
              , hashes := acc.hashes ++ [(r.key, payloadHash r.payload)] })
  | .dedupSkip =>
    (recs2, st.2.1,
     { acc with kept := acc.kept + 1
              , hashes := acc.hashes ++ [(r.key, payloadHash r.payload)] })
  | .keepFirstSkip =>
    (recs2, st.2.1,
     { acc with overwritten := acc.overwritten + 1
              , lostKeys := acc.lostKeys ++ [r.key] })
  | .replaced _ =>
    (recs2, markOverwritten st.2.1 r.key,
     { acc with kept := acc.kept + 1
              , hashes := acc.hashes ++ [(r.key, payloadHash r.payload)] })

/-- Modelled from the spec: processing one whole input of the part —
append its records in order and build its descriptor (spec section 4.1
step 5); the retained records appended for this input occupy one
contiguous index range starting at the current part length. -/
def processInput (opts : MergeOptions)
    (st : List ResourceRecord × List OriginalPackageDescriptor)
    (inp : String × Container) :
    List ResourceRecord × List OriginalPackageDescriptor :=
  let start := st.1.length
  let res := inp.2.foldl (appendRecordStep opts)
    (st.1, st.2, { kept := 0, overwritten := 0, addedCount := 0, hashes := [], lostKeys := [] })
  let acc := res.2.2
  let desc : OriginalPackageDescriptor :=
    { basename := inp.1
    , resourceCount := inp.2.length
    , keptCount := acc.kept
    , overwrittenCount := acc.overwritten
    , ranges := if acc.addedCount = 0 then [] else [(start, start + acc.addedCount - 1)]
    , recordHashes := acc.hashes
    , overwrittenKeys := acc.lostKeys }
  (res.1, res.2.1 ++ [desc])

/-- Modelled from the spec: building one output part from its inputs —
append every input in order, then append the metadata record built from
the accumulated descriptors and the effective options at the sentinel key
(spec section 4.1 step 6). -/
def buildPart (opts : MergeOptions) (inputs : List (String × Container)) : OutputPart :=
  let st := inputs.foldl (processInput opts) ([], [])
  let meta : MergeMetadata :=
    { version := METADATA_VERSION, tool := "s4merge", descriptors := st.2, options := opts }
  st.1.map MergedRecord.ordinary ++ [MergedRecord.metadata meta]

/-- Decode every raw input in order with the external codec; the first
failure aborts the whole group with InputUnreadable naming the input. -/
def decodeAllInputs (decode : List Nat → Option Container) :
    List (String × List Nat) → Except MergeError (List (String × Container))
  | [] => .ok []
  | (name, bytes) :: rest =>
    match decode bytes with
    | none => .error (.inputUnreadable name)
    | some c =>
      match decodeAllInputs decode rest with
      | .error e => .error e
      | .ok cs => .ok ((name, c) :: cs)

/-- Modelled from the spec: `mergeGroup(orderedInputs, options)` of spec
section 4.1 — shadow-original without codec support for duplicate keys
fails fast with PolicyConflict before any work; a decode failure aborts the
whole group; otherwise the inputs are grouped by the rollover rule and each
group becomes one output part. -/
def mergeGroup (codecSupportsDuplicateKeys : Bool)
    (decode : List Nat → Option Container) (opts : MergeOptions)
    (rawInputs : List (String × List Nat)) : Except MergeError (List OutputPart) :=
  if opts.policy = .shadowOriginal ∧ ¬codecSupportsDuplicateKeys then
    .error .policyConflict
  else
    match decodeAllInputs decode rawInputs with
    | .error e => .error e
    | .ok inputs =>
      .ok ((planParts opts.maxPartSizeBytes inputs).map (buildPart opts))

/-- Modelled from the spec: UnmergeOutcome of spec section 4.2. -/
structure UnmergeOutcome where
  descriptor : OriginalPackageDescriptor
  records : List ResourceRecord
  success : Bool
  mismatchedKeys : List ResourceKey
  missingKeys : List ResourceKey
deriving DecidableEq

/-- Modelled from the spec: fatal unmerge errors of spec section 7. -/
inductive UnmergeError where
  | metadataMissing
  | unsupportedMetadataVersion
deriving DecidableEq

/-- Locate the sentinel metadata record of a merged container: the first
record tagged as metadata, the tag being disambiguated by the reserved
sentinel key. -/
def findMetadata (part : OutputPart) : Option MergeMetadata :=
  part.findSome? fun mr =>
    match mr with
    | .metadata m => some m
    | .ordinary _ => none

/-- Slice of the part record sequence for one inclusive index range. -/
def sliceRange (part : OutputPart) (r : Nat × Nat) : List MergedRecord :=
  (part.drop r.1).take (r.2 + 1 - r.1)

/-- Modelled from the spec: reconstruction of one descriptor (spec section
4.2 steps 3 to 5) — slice the record sequence by the descriptor ranges,
recompute the payload hash of every record that has one recorded and
collect mismatching keys, and report keys lost to a collision as missing;
the outcome succeeds when nothing mismatches and nothing is missing. -/
def reconstructOutcome (part : OutputPart) (d : OriginalPackageDescriptor) :
    UnmergeOutcome :=
  let recs := (d.ranges.flatMap (sliceRange part)).filterMap MergedRecord.ordinaryRec
  let mismatched := (d.recordHashes.filter fun kh =>
    match recs.find? (fun r => r.key = kh.1) with
    | some r => payloadHash r.payload ≠ kh.2
    | none => false).map (fun kh => kh.1)
  { descriptor := d
  , records := recs
  , success := mismatched = [] ∧ d.overwrittenKeys = []
  , mismatchedKeys := mismatched
  , missingKeys := d.overwrittenKeys }

/-- Modelled from the spec: `unmerge(container)` of spec section 4.2 —
locate the sentinel metadata record (MetadataMissing when absent), validate
the format version (UnsupportedMetadataVersion on an unknown version), and
reconstruct one outcome per descriptor. -/
def unmerge (part : OutputPart) : Except UnmergeError (List UnmergeOutcome) :=
  match findMetadata part with
  | none => .error .metadataMissing
  | some m =>
    if m.version ≠ METADATA_VERSION then .error .unsupportedMetadataVersion
    else .ok (m.descriptors.map (reconstructOutcome part))

/-- The parent-directory segment. -/
def dd : JStr := ['.', '.']

/-- A resolved non-dot path segment: nonempty, free of separators, and not
a dot segment. -/
def coreSeg (s : JStr) : Prop :=
  '/' ∉ s ∧ '\\' ∉ s ∧ s ≠ [] ∧ s ≠ ['.'] ∧ s ≠ ['.', '.']

/-- Whether a string starts with an ASCII letter followed by a colon, the
shape the drive regex of `analyzePathPrefix` matches. -/
def driveLike : JStr → Bool
  | a :: b :: _ => isAsciiLetter a && b = ':'
  | _ => false

/-- Whether a string starts with a lowercase ASCII letter. -/
def lowerStart : JStr → Bool
  | a :: _ => 'a' ≤ a && a ≤ 'z'
  | _ => false

/-- Normalized paths that re-parse under a different prefix classification
when fed to normalizePath again: the bare UNC root `//`, a path carrying an
extended-length-looking `//?/` prefix, a path whose leading segment looks
like a drive letter and either is lowercase or is followed by a bare dot
chunk, and a slash followed by a drive-like segment. -/
def reparsesDifferently (q : JStr) : Bool :=
  decide (q = ['/', '/']) ||
  (['/', '/', '?', '/'].isPrefixOf q) ||
  (driveLike q &&
    (lowerStart q || decide ((q.drop 2).takeWhile (fun c => c ≠ '/') = ['.']))) ||
  (match q with
   | '/' :: t => driveLike t
   | _ => false)

/-- The single code point of the modelled folded form of a character. -/
def foldChar (c : Nat) : Nat := if 65 ≤ c ∧ c ≤ 90 then c + 32 else c

/-- Encoded sort key list of a string. -/
def encKey (s : List Nat) : List Nat := (buildSortKey s).encoded

/-- First-difference-then-length comparison value, the proof-side normal
form of the sort key comparisons inside stableCompare. -/
def listCmp (u v : List Nat) : Int :=
  if firstDelta u v ≠ 0 then firstDelta u v
  else (u.length : Int) - (v.length : Int)

/-- All records of a group of inputs, in input order. -/
def joinRecs (g : List (String × Container)) : Container :=
  (g.map Prod.snd).flatten

/-- The descriptors the merge produces on the collision-free path: every
record is kept, nothing is overwritten, and each input occupies one
contiguous range starting at the running offset. -/
def cleanDescs (offset : Nat) : List (String × Container) → List OriginalPackageDescriptor
  | [] => []
  | (name, c) :: rest =>
    { basename := name
    , resourceCount := c.length
    , keptCount := c.length
    , overwrittenCount := 0
    , ranges := if c.length = 0 then [] else [(offset, offset + c.length - 1)]
    , recordHashes := c.map (fun r => (r.key, payloadHash r.payload))
    , overwrittenKeys := [] } :: cleanDescs (offset + c.length) rest

/-- Outcomes of unmerging every part of a merge result, concatenated in
part order; a part whose unmerge fails contributes nothing. -/
def unmergeList (parts : List OutputPart) : List UnmergeOutcome :=
  parts.flatMap fun part =>
    match unmerge part with
    | .ok outs => outs
    | .error _ => []

/-! ## Concrete objects used by witnesses -/

/-- Concrete codec model used by witnesses: one entry per buffer keyed by
its first byte; the buffer merge concatenates such entries. -/
def witnessLib : S4TKLib :=
  { fromBytes := fun b => .ok [{ keyType := b.headD 0, keyGroup := 0, keyInstance := 0, value := b }]
  , mergeBuffers := fun bufs =>
      .ok (bufs.map fun b => { keyType := b.headD 0, keyGroup := 0, keyInstance := 0, value := b }) }

/-- Concrete filesystem holding files a and b. -/
def witnessFsA : FileSys :=
  fun q => if q = "a" then some [1] else if q = "b" then some [2] else none

/-- The same filesystem except that every other path now holds a file. -/
def witnessFsB : FileSys :=
  fun q => if q = "a" then some [1] else if q = "b" then some [2] else some [9]

/-- The empty filesystem. -/
def emptyFs : FileSys := fun _ => none

/-- Concrete source package for the appendAllResources evaluation: two
entries, one of which the external `_makeEntry` rejects. -/
def c6Source : S4Package :=
  { internal :=
      [ { keyType := 5, keyGroup := 0, keyInstance := 0, value := [1] }
      , { keyType := 7, keyGroup := 0, keyInstance := 0, value := [2] } ]
  , resourceCount := 2
  , estimatedSize := 2048 }

/-- Model of an external `_makeEntry` that rejects entries of type 7. -/
def c6CanAdd : S4Entry → Bool := fun e => e.keyType ≠ 7

/-- Concrete codec decode used by engine witnesses: each buffer decodes to
one record keyed by its first byte. -/
def witnessDecode : List Nat → Option Container := fun bytes =>
  some [{ key := { typeId := bytes.headD 1, group := 1, instanceId := 1 }
        , payload := bytes }]

/-- Concrete raw inputs a, b, c used by engine witnesses. -/
def witnessRaws : List (String × List Nat) := [("a", [1]), ("b", [2]), ("c", [3])]

/-- Merge options with no part size cap. -/
def witnessOptsNoCap : MergeOptions :=
  { dedup := false, policy := .keepLast, maxPartSizeBytes := none }

/-- Merge options with a 70 byte part size cap; each witness record has an
estimated size of 33 bytes, so two inputs fit and the third rolls over. -/
def witnessOptsCap : MergeOptions :=
  { dedup := false, policy := .keepLast, maxPartSizeBytes := some 70 }

/-- The decoded form of the witness raw inputs under witnessDecode. -/
def witnessInputs : List (String × Container) :=
  [ ("a", [{ key := { typeId := 1, group := 1, instanceId := 1 }, payload := [1] }])
  , ("b", [{ key := { typeId := 2, group := 1, instanceId := 1 }, payload := [2] }])
  , ("c", [{ key := { typeId := 3, group := 1, instanceId := 1 }, payload := [3] }]) ]

/-! ## Theorems -/

/-- C9: calling mergePackages with an empty list of file paths succeeds and
returns a fresh empty package with resourceCount 0 and estimatedSize 0,
rather than raising an error. -/
theorem mergePackages_empty_paths (lib : S4TKLib) (fs : FileSys) :
    mergePackages lib fs [] = .ok createEmptyPackage ∧
    createEmptyPackage.resourceCount = 0 ∧ createEmptyPackage.estimatedSize = 0 :=
  ⟨rfl, rfl, rfl⟩

/-- Reading a list of files only depends on the bytes of the listed paths. -/
theorem readAllFiles_congr (fs1 fs2 : FileSys) (paths : List String)
    (h : ∀ p ∈ paths, fs1 p = fs2 p) :
    readAllFiles fs1 paths = readAllFiles fs2 paths := by
  induction paths with
  | nil => rfl
  | cons p rest ih =>
    simp only [readAllFiles]
    rw [h p (by simp), ih (fun q hq => h q (by simp [hq]))]

/-- C1: for a fixed ordered list of input package files and fixed options
the merge is deterministic — the result of mergePackages is a pure function
of the bytes of the listed inputs in their given order (and of the external
codec), so byte-identical inputs in the same order produce an identical
merged package, and identical serialized bytes under the deterministic
codec encode contract. Two filesystems agreeing on the listed paths are
indistinguishable to the merge. -/
theorem mergePackages_deterministic (lib : S4TKLib) (fs1 fs2 : FileSys)
    (paths : List String) (h : ∀ p ∈ paths, fs1 p = fs2 p) :
    mergePackages lib fs1 paths = mergePackages lib fs2 paths := by
  unfold mergePackages
  rw [readAllFiles_congr fs1 fs2 paths h]

/-- Witness for C1 at concrete inputs: two filesystems that agree on the
listed files a and b but differ everywhere else give identical merges. -/
theorem mergePackages_deterministic_witness :
    mergePackages witnessLib witnessFsA ["a", "b"] =
      mergePackages witnessLib witnessFsB ["a", "b"] :=
  mergePackages_deterministic witnessLib witnessFsA witnessFsB ["a", "b"] (by decide)

/-- A missing file makes the whole read fail. -/
theorem readAllFiles_none (fs : FileSys) (paths : List String) (p : String)
    (hp : p ∈ paths) (hnone : fs p = none) : readAllFiles fs paths = none := by
  induction paths with
  | nil => cases hp
  | cons q rest ih =>
    simp only [readAllFiles]
    rcases List.mem_cons.mp hp with h | h
    · subst h
      rw [hnone]
    · cases hq : fs q with
      | none => rfl
      | some buffer => rw [ih h]

/-- C5: when any input of a merge group fails to decode, the merge of the
whole group fails with an error and returns no output for the group. The
embedded mergePackages aborts with a single wrapped error when reading any
listed file fails and when the external buffer merge reports a decode
failure, and loadPackage aborts with an error when its buffer fails to
decode; the Except result carries no partial package. -/
theorem merge_aborts_on_unreadable_input (lib : S4TKLib) (fs : FileSys)
    (paths : List String) (p : String) (hp : p ∈ paths) :
    (fs p = none →
      mergePackages lib fs paths = .error (.s4tk "Failed to merge packages")) ∧
    (∀ buffers msg, readAllFiles fs paths = some buffers →
      lib.mergeBuffers buffers = .error msg →
      mergePackages lib fs paths = .error (.s4tk "Failed to merge packages")) ∧
    (∀ buffer msg, fs p = some buffer → lib.fromBytes buffer = .error msg →
      ∃ e, loadPackage lib fs p = .error e) := by
  have hne : paths ≠ [] := by
    intro hh
    subst hh
    cases hp
  refine ⟨?_, ?_, ?_⟩
  · intro hnone
    unfold mergePackages
    rw [if_neg hne, readAllFiles_none fs paths p hp hnone]
  · intro buffers msg hread hmerge
    unfold mergePackages
    rw [if_neg hne, hread]
    simp only [hmerge]
  · intro buffer msg hsome hdecode
    unfold loadPackage
    rw [hsome]
    simp only [hdecode]
    by_cases hmsg : msg = "Not a package file"
    · exact ⟨.packageCorruption p, by rw [if_pos hmsg]⟩
    · exact ⟨.packageLoad p, by rw [if_neg hmsg]⟩

/-- Witness for C5 at a concrete input: a single listed path that the
filesystem does not hold makes the merge return the wrapped error. -/
theorem merge_aborts_on_unreadable_input_witness :
    mergePackages witnessLib emptyFs ["x"] = .error (.s4tk "Failed to merge packages") :=
  (merge_aborts_on_unreadable_input witnessLib emptyFs ["x"] "x" (by decide)).1 rfl

/-- C6: the claim that no resource is silently dropped fails on the code of
src/src/core/taxonomy.ts. When the external `_makeEntry` rejects an entry,
appendAllResources logs a console warning, skips the entry and completes
successfully: at this concrete input, the type 7 entry of the source is
absent from the result, the call returns a package rather than an error,
and no bookkeeping of the dropped record exists anywhere in the result. -/
theorem appendAllResources_drops_silently :
    ({ keyType := 7, keyGroup := 0, keyInstance := 0, value := [2] } : S4Entry) ∈
        c6Source.internal ∧
    ({ keyType := 7, keyGroup := 0, keyInstance := 0, value := [2] } : S4Entry) ∉
        (appendAllResources c6CanAdd createEmptyPackage c6Source).internal ∧
    (appendAllResources c6CanAdd createEmptyPackage c6Source).resourceCount = 1 := by
  decide

/-- C7 counterexample: writeFileAtomic can fail in the directory fsync step
after the atomic rename has already happened, so a failing call can leave
the destination holding the complete new content — contradicting the clause
that only on success does the destination hold the new content. -/
theorem writeFileAtomic_fails_yet_new_content :
    (writeFileAtomic emptyFs "out" "tmp" [1, 2] .dirSync).2 =
      .error "Failed to fsync directory" ∧
    (writeFileAtomic emptyFs "out" "tmp" [1, 2] .dirSync).1 "out" = some [1, 2] ∧
    emptyFs "out" = none :=
  ⟨rfl, rfl, rfl⟩

/-- C7 amended: the destination never holds partially-written content — at
every failure point it holds either its previous content (or remains
absent) or the complete new content, and on success it holds the complete
new content; a failed call can leave the new content in place only because
the directory fsync follows the atomic rename. -/
theorem writeFileAtomic_never_partial (fs : FileSys) (targetPath tempPath : String)
    (content : List Nat) (step : WriteStep) (hne : tempPath ≠ targetPath) :
    ((writeFileAtomic fs targetPath tempPath content step).1 targetPath = fs targetPath ∨
      (writeFileAtomic fs targetPath tempPath content step).1 targetPath = some content) ∧
    ((writeFileAtomic fs targetPath tempPath content step).2 = .ok () →
      (writeFileAtomic fs targetPath tempPath content step).1 targetPath = some content) := by
  have hne2 : targetPath ≠ tempPath := Ne.symm hne
  unfold writeFileAtomic fsSet
  cases step <;> simp [hne2]

/-- Witness for C7 amended at a concrete input: a fresh temp path next to
the destination, evaluated at the successful run. -/
theorem writeFileAtomic_never_partial_witness :
    ((writeFileAtomic emptyFs "out" "tmp" [1] .allOk).1 "out" = emptyFs "out" ∨
      (writeFileAtomic emptyFs "out" "tmp" [1] .allOk).1 "out" = some [1]) ∧
    ((writeFileAtomic emptyFs "out" "tmp" [1] .allOk).2 = .ok () →
      (writeFileAtomic emptyFs "out" "tmp" [1] .allOk).1 "out" = some [1]) :=
  writeFileAtomic_never_partial emptyFs "out" "tmp" [1] .allOk (by decide)

/-- Rollover grouping flattens back to the ordered input list. -/
theorem planPartsGo_flatten (cap : Nat) :
    ∀ (rest cur : List (String × Container)) (curSize : Nat),
      (planPartsGo cap cur curSize rest).flatten = cur.reverse ++ rest := by
  intro rest
  induction rest with
  | nil =>
    intro cur curSize
    by_cases h : cur = []
    · subst h; simp [planPartsGo]
    · simp [planPartsGo, h]
  | cons inp rest ih =>
    intro cur curSize
    simp only [planPartsGo]
    by_cases h : cur ≠ [] ∧ curSize + estContainerSize inp.2 > cap
    · rw [if_pos h]
      simp [ih]
    · rw [if_neg h]
      rw [ih]
      simp

/-- The rollover plan is a partition of the inputs in order. -/
theorem planParts_flatten (capOpt : Option Nat) (inputs : List (String × Container)) :
    (planParts capOpt inputs).flatten = inputs := by
  cases capOpt with
  | none =>
    by_cases h : inputs = [] <;> simp [planParts, h]
  | some cap => simpa using planPartsGo_flatten cap inputs [] 0

/-- Every part of the rollover plan holds at least one whole input. -/
theorem planPartsGo_ne_nil (cap : Nat) :
    ∀ (rest cur : List (String × Container)) (curSize : Nat) (g : List (String × Container)),
      g ∈ planPartsGo cap cur curSize rest → g ≠ [] := by
  intro rest
  induction rest with
  | nil =>
    intro cur curSize g hg
    by_cases h : cur = []
    · subst h; simp [planPartsGo] at hg
    · simp [planPartsGo, h] at hg
      subst hg
      simp [h]
  | cons inp rest ih =>
    intro cur curSize g hg
    simp only [planPartsGo] at hg
    by_cases h : cur ≠ [] ∧ curSize + estContainerSize inp.2 > cap
    · rw [if_pos h] at hg
      rcases List.mem_cons.mp hg with h2 | h2
      · subst h2
        simp [h.1]
      · exact ih _ _ g h2
    · rw [if_neg h] at hg
      exact ih _ _ g hg

/-- Membership in a plan group implies membership in the input list. -/
theorem planParts_mem (capOpt : Option Nat) (inputs : List (String × Container))
    (g : List (String × Container)) (x : String × Container)
    (hg : g ∈ planParts capOpt inputs) (hx : x ∈ g) : x ∈ inputs := by
  rw [← planParts_flatten capOpt inputs]
  exact List.mem_flatten.mpr ⟨g, hg, hx⟩

/-- Appending one record only adds that record. -/
theorem appendOne_mem (opts : MergeOptions) (recs : List ResourceRecord)
    (r x : ResourceRecord) (hx : x ∈ (appendOne opts recs r).1) : x ∈ recs ∨ x = r := by
  unfold appendOne at hx
  cases hidx : findKeyIdx recs r.key with
  | none =>
    rw [hidx] at hx
    simp only at hx
    rcases List.mem_append.mp hx with h | h
    · exact .inl h
    · exact .inr (List.mem_singleton.mp h)
  | some j =>
    rw [hidx] at hx
    simp only at hx
    by_cases hd : opts.dedup ∧ (recs.getD j { key := r.key, payload := [] }).payload = r.payload
    · rw [if_pos hd] at hx
      exact .inl hx
    · rw [if_neg hd] at hx
      cases hpol : opts.policy
      · rw [hpol] at hx
        simp only at hx
        exact List.mem_or_eq_of_mem_set hx
      · rw [hpol] at hx
        exact .inl hx
      · rw [hpol] at hx
        simp only at hx
        rcases List.mem_append.mp hx with h | h
        · exact .inl h
        · exact .inr (List.mem_singleton.mp h)

/-- The record list after one append step is the appendOne record list. -/
theorem appendRecordStep_recs (opts : MergeOptions)
    (st : List ResourceRecord × List OriginalPackageDescriptor × InputAccum)
    (r : ResourceRecord) :
    (appendRecordStep opts st r).1 = (appendOne opts st.1 r).1 := by
  unfold appendRecordStep
  rcases h : appendOne opts st.1 r with ⟨recs2, outcome⟩
  cases outcome <;> simp

/-- Folding the append step only adds records of the appended list. -/
theorem foldRecords_mem (opts : MergeOptions) :
    ∀ (rs : List ResourceRecord)
      (st : List ResourceRecord × List OriginalPackageDescriptor × InputAccum)
      (x : ResourceRecord), x ∈ (rs.foldl (appendRecordStep opts) st).1 →
      x ∈ st.1 ∨ x ∈ rs := by
  intro rs
  induction rs with
  | nil =>
    intro st x hx
    exact .inl hx
  | cons r rest ih =>
    intro st x hx
    rw [List.foldl_cons] at hx
    rcases ih _ x hx with h | h
    · rw [appendRecordStep_recs] at h
      rcases appendOne_mem opts st.1 r x h with h2 | h2
      · exact .inl h2
      · exact .inr (by simp [h2])
    · exact .inr (by simp [h])

/-- Processing one input only adds records of that input. -/
theorem processInput_mem (opts : MergeOptions)
    (st : List ResourceRecord × List OriginalPackageDescriptor)
    (inp : String × Container) (x : ResourceRecord)
    (hx : x ∈ (processInput opts st inp).1) : x ∈ st.1 ∨ x ∈ inp.2 := by
  unfold processInput at hx
  simp only at hx
  exact foldRecords_mem opts inp.2 _ x hx

/-- Folding whole inputs only adds records of those inputs. -/
theorem foldInputs_mem (opts : MergeOptions) :
    ∀ (g : List (String × Container))
      (st : List ResourceRecord × List OriginalPackageDescriptor)
      (x : ResourceRecord), x ∈ (g.foldl (processInput opts) st).1 →
      x ∈ st.1 ∨ ∃ inp ∈ g, x ∈ inp.2 := by
  intro g
  induction g with
  | nil =>
    intro st x hx
    exact .inl hx
  | cons inp rest ih =>
    intro st x hx
    rw [List.foldl_cons] at hx
    rcases ih _ x hx with h | h
    · rcases processInput_mem opts st inp x h with h2 | h2
      · exact .inl h2
      · exact .inr ⟨inp, by simp, h2⟩
    · rcases h with ⟨inp2, hmem, hx2⟩
      exact .inr ⟨inp2, by simp [hmem], hx2⟩

/-- C3: every output part produced by the merge contains exactly one merge
metadata record, appended last at the reserved sentinel key (Type 0x4D455447,
Group 0, Instance 0), and for every merge run whose inputs keep the sentinel
key reserved, that key never collides with the key of any real resource
record in the part. -/
theorem sentinel_unique_per_part (sup : Bool) (decode : List Nat → Option Container)
    (opts : MergeOptions) (rawInputs : List (String × List Nat))
    (inputs : List (String × Container)) (parts : List OutputPart)
    (hdec : decodeAllInputs decode rawInputs = .ok inputs)
    (hok : mergeGroup sup decode opts rawInputs = .ok parts)
    (hsent : ∀ inp ∈ inputs, ∀ r ∈ inp.2, r.key ≠ sentinelKey) :
    ∀ part ∈ parts,
      part.countP (fun mr => mr.key = sentinelKey) = 1 ∧
      (∃ m, part.getLast? = some (MergedRecord.metadata m)) ∧
      (∀ r : ResourceRecord, MergedRecord.ordinary r ∈ part → r.key ≠ sentinelKey) := by
  intro part hpart
  unfold mergeGroup at hok
  by_cases hpol : opts.policy = .shadowOriginal ∧ ¬sup
  · rw [if_pos hpol] at hok
    cases hok
  · rw [if_neg hpol, hdec] at hok
    have hparts : (planParts opts.maxPartSizeBytes inputs).map (buildPart opts) = parts := by
      injection hok
    rw [← hparts] at hpart
    rcases List.mem_map.mp hpart with ⟨g, hg, hbuild⟩
    subst hbuild
    have hrecs : ∀ x ∈ (g.foldl (processInput opts) ([], [])).1, x.key ≠ sentinelKey := by
      intro x hx
      rcases foldInputs_mem opts g ([], []) x hx with h | ⟨inp, hinp, hxin⟩
      · cases h
      · exact hsent inp (planParts_mem opts.maxPartSizeBytes inputs g inp hg hinp) x hxin
    unfold buildPart
    refine ⟨?_, ?_, ?_⟩
    · rw [List.countP_append, List.countP_map]
      have h0 : ((g.foldl (processInput opts) ([], [])).1).countP
          ((fun mr => decide (MergedRecord.key mr = sentinelKey)) ∘ MergedRecord.ordinary) = 0 := by
        rw [List.countP_eq_zero]
        intro r hr
        simp [MergedRecord.key, hrecs r hr]
      rw [h0]
      simp [List.countP_cons, MergedRecord.key]
    · exact ⟨_, List.getLast?_concat _⟩
    · intro r hr
      rcases List.mem_append.mp hr with h | h
      · rcases List.mem_map.mp h with ⟨x, hx, hxr⟩
        have hx2 : x = r := by injection hxr
        rw [← hx2]
        exact hrecs x hx
      · cases List.mem_singleton.mp h

/-- Witness for C3 at concrete inputs: the single part of the uncapped
witness merge carries exactly one record at the sentinel key. -/
theorem sentinel_unique_per_part_witness :
    (buildPart witnessOptsNoCap witnessInputs).countP
      (fun mr => mr.key = sentinelKey) = 1 :=
  (sentinel_unique_per_part true witnessDecode witnessOptsNoCap witnessRaws
    witnessInputs [buildPart witnessOptsNoCap witnessInputs] rfl rfl (by decide)
    (buildPart witnessOptsNoCap witnessInputs) (List.mem_singleton.mpr rfl)).1

/-- A key absent from the appended records is not found. -/
theorem findKeyIdx_none (recs : List ResourceRecord) (k : ResourceKey)
    (h : ∀ x ∈ recs, x.key ≠ k) : findKeyIdx recs k = none := by
  induction recs with
  | nil => rfl
  | cons r rest ih =>
    unfold findKeyIdx
    rw [if_neg (h r (by simp)), ih (fun x hx => h x (by simp [hx]))]
    rfl

/-- Appending a record with a fresh key appends it at the end. -/
theorem appendOne_fresh (opts : MergeOptions) (recs : List ResourceRecord)
    (r : ResourceRecord) (h : ∀ x ∈ recs, x.key ≠ r.key) :
    appendOne opts recs r = (recs ++ [r], .added) := by
  unfold appendOne
  rw [findKeyIdx_none recs r.key h]

/-- One append step of a fresh-keyed record: the record goes to the end of
the part and the bookkeeping counts it as kept and added. -/
theorem appendRecordStep_fresh (opts : MergeOptions)
    (recs : List ResourceRecord) (descs : List OriginalPackageDescriptor)
    (acc : InputAccum) (r : ResourceRecord) (h : ∀ x ∈ recs, x.key ≠ r.key) :
    appendRecordStep opts (recs, descs, acc) r =
      (recs ++ [r], descs,
       { acc with kept := acc.kept + 1, addedCount := acc.addedCount + 1
                , hashes := acc.hashes ++ [(r.key, payloadHash r.payload)] }) := by
  unfold appendRecordStep
  rw [appendOne_fresh opts recs r h]

/-- Keys of the left part of an append with nodup mapped keys are distinct
from keys of the right part. -/
theorem key_fresh_of_nodup (recs rest : List ResourceRecord)
    (h : ((recs ++ rest).map (fun r => r.key)).Nodup) :
    ∀ x ∈ recs, ∀ y ∈ rest, x.key ≠ y.key := by
  intro x hx y hy heq
  rw [List.map_append, List.nodup_append] at h
  exact h.2.2 (List.mem_map_of_mem _ hx) (heq ▸ List.mem_map_of_mem _ hy)

/-- Folding the append step over records with globally distinct keys
appends them all in order and accumulates the clean bookkeeping. -/
theorem foldRecords_clean (opts : MergeOptions) :
    ∀ (rs recs : List ResourceRecord) (descs : List OriginalPackageDescriptor)
      (acc : InputAccum), ((recs ++ rs).map (fun r => r.key)).Nodup →
      rs.foldl (appendRecordStep opts) (recs, descs, acc) =
        (recs ++ rs, descs,
         { acc with kept := acc.kept + rs.length
                  , addedCount := acc.addedCount + rs.length
                  , hashes := acc.hashes ++ rs.map (fun r => (r.key, payloadHash r.payload)) }) := by
  intro rs
  induction rs with
  | nil =>
    intro recs descs acc h
    simp
  | cons r rest ih =>
    intro recs descs acc h
    rw [List.foldl_cons]
    have hfresh : ∀ x ∈ recs, x.key ≠ r.key := by
      intro x hx
      exact key_fresh_of_nodup recs (r :: rest) h x hx r (by simp)
    rw [appendRecordStep_fresh opts recs descs acc r hfresh]
    have h2 : (((recs ++ [r]) ++ rest).map (fun r => r.key)).Nodup := by
      simpa using h
    rw [ih (recs ++ [r]) descs _ h2]
    simp [List.append_assoc]
    constructor
    · omega
    · omega

/-- Processing one input with globally fresh keys appends its records as
one contiguous block and emits the clean descriptor for it. -/
theorem processInput_clean (opts : MergeOptions) (recs : List ResourceRecord)
    (descs : List OriginalPackageDescriptor) (name : String) (c : Container)
    (h : ((recs ++ c).map (fun r => r.key)).Nodup) :
    processInput opts (recs, descs) (name, c) =
      (recs ++ c, descs ++
        [{ basename := name
         , resourceCount := c.length
         , keptCount := c.length
         , overwrittenCount := 0
         , ranges := if c.length = 0 then [] else [(recs.length, recs.length + c.length - 1)]
         , recordHashes := c.map (fun r => (r.key, payloadHash r.payload))
         , overwrittenKeys := [] }]) := by
  unfold processInput
  rw [foldRecords_clean opts c recs descs _ h]
  simp

/-- Folding whole inputs with globally distinct keys concatenates all their
records in order and emits the clean descriptors at running offsets. -/
theorem foldInputs_clean (opts : MergeOptions) :
    ∀ (g : List (String × Container)) (recs : List ResourceRecord)
      (descs : List OriginalPackageDescriptor),
      ((recs ++ joinRecs g).map (fun r => r.key)).Nodup →
      g.foldl (processInput opts) (recs, descs) =
        (recs ++ joinRecs g, descs ++ cleanDescs recs.length g) := by
  intro g
  induction g with
  | nil =>
    intro recs descs h
    simp [joinRecs, cleanDescs]
  | cons inp rest ih =>
    intro recs descs h
    rcases inp with ⟨name, c⟩
    have hjoin : joinRecs ((name, c) :: rest) = c ++ joinRecs rest := by
      simp [joinRecs]
    rw [hjoin] at h
    have hleft : ((recs ++ c).map (fun r => r.key)).Nodup := by
      have hsub : List.Sublist ((recs ++ c).map (fun r => r.key))
          ((recs ++ (c ++ joinRecs rest)).map (fun r => r.key)) := by
        refine List.Sublist.map _ ?_
        rw [← List.append_assoc]
        exact List.sublist_append_left _ _
      exact List.Nodup.sublist hsub h
    rw [List.foldl_cons, processInput_clean opts recs descs name c hleft]
    have h2 : (((recs ++ c) ++ joinRecs rest).map (fun r => r.key)).Nodup := by
      rw [List.append_assoc]
      exact h
    rw [ih (recs ++ c) _ h2, hjoin]
    simp [cleanDescs, List.append_assoc]

/-- Building a part from inputs with globally distinct keys yields their
records in order followed by the metadata record with clean descriptors. -/
theorem buildPart_clean (opts : MergeOptions) (g : List (String × Container))
    (h : ((joinRecs g).map (fun r => r.key)).Nodup) :
    buildPart opts g =
      (joinRecs g).map MergedRecord.ordinary ++
        [MergedRecord.metadata
          { version := METADATA_VERSION, tool := "s4merge"
          , descriptors := cleanDescs 0 g, options := opts }] := by
  unfold buildPart
  rw [foldInputs_clean opts g [] [] (by simpa using h)]
  simp

/-- Filtering the ordinary records out of a mapped ordinary list gives the
list back. -/
theorem filterMap_ordinary (l : Container) :
    (l.map MergedRecord.ordinary).filterMap MergedRecord.ordinaryRec = l := by
  induction l with
  | nil => rfl
  | cons r rest ih =>
    simp [List.filterMap_cons, MergedRecord.ordinaryRec, ih]

/-- The metadata record of a clean part is found after the ordinary
records. -/
theorem findMetadata_clean (l : Container) (m : MergeMetadata) :
    findMetadata (l.map MergedRecord.ordinary ++ [MergedRecord.metadata m]) = some m := by
  induction l with
  | nil => rfl
  | cons r rest ih =>
    simpa [findMetadata, List.findSome?_cons, MergedRecord.ordinaryRec] using ih

/-- Group record concatenation distributes over group append. -/
theorem joinRecs_append (a b : List (String × Container)) :
    joinRecs (a ++ b) = joinRecs a ++ joinRecs b := by
  simp [joinRecs]

/-- Slicing a clean part at the offset of an interior block recovers the
block. -/
theorem sliceRange_clean (P c R : Container) (m : MergeMetadata) (hc : c ≠ []) :
    sliceRange ((P ++ c ++ R).map MergedRecord.ordinary ++ [MergedRecord.metadata m])
      (P.length, P.length + c.length - 1) = c.map MergedRecord.ordinary := by
  have hc0 : c.length ≠ 0 := fun h0 => hc (List.length_eq_zero.mp h0)
  unfold sliceRange
  have harith : P.length + c.length - 1 + 1 - P.length = c.length := by omega
  have hdecomp : (P ++ c ++ R).map MergedRecord.ordinary ++ [MergedRecord.metadata m] =
      P.map MergedRecord.ordinary ++ (c.map MergedRecord.ordinary ++
        (R.map MergedRecord.ordinary ++ [MergedRecord.metadata m])) := by
    simp [List.append_assoc]
  simp only [hdecomp, harith]
  have h1 : (P.map MergedRecord.ordinary).length = P.length := List.length_map _ _
  rw [← h1, List.drop_left]
  have h2 : (c.map MergedRecord.ordinary).length = c.length := List.length_map _ _
  rw [← h2, List.take_left]

/-- In a container with distinct keys, searching for the key of a member
finds exactly that member. -/
theorem find?_self_of_nodup (c : Container) (hn : (c.map (fun r => r.key)).Nodup)
    (r0 : ResourceRecord) (h0 : r0 ∈ c) :
    c.find? (fun r => r.key = r0.key) = some r0 := by
  induction c with
  | nil => cases h0
  | cons r rest ih =>
    rcases List.mem_cons.mp h0 with h | h
    · subst h
      simp
    · have hnodup := List.nodup_cons.mp hn
      have hne : ¬(r.key = r0.key) := by
        intro heq
        have : r0.key ∈ rest.map (fun r => r.key) := List.mem_map_of_mem _ h
        rw [← heq] at this
        exact hnodup.1 this
      rw [List.find?_cons_of_neg _ (by simpa using hne)]
      exact ih hnodup.2 h

/-- The integrity filter finds nothing on an unmodified clean slice. -/
theorem mismatched_empty_clean (c : Container) (hn : (c.map (fun r => r.key)).Nodup) :
    ((c.map (fun r => (r.key, payloadHash r.payload))).filter fun kh =>
      match c.find? (fun r => r.key = kh.1) with
      | some r => payloadHash r.payload ≠ kh.2
      | none => false) = [] := by
  rw [List.filter_eq_nil_iff]
  intro kh hkh
  rcases List.mem_map.mp hkh with ⟨r0, hr0, hkh2⟩
  subst hkh2
  simp only
  rw [find?_self_of_nodup c hn r0 hr0]
  simp

/-- Reconstruction of one clean descriptor recovers its input records and
succeeds. -/
theorem reconstructOutcome_clean (P c R : Container) (m : MergeMetadata) (name : String)
    (hn : (c.map (fun r => r.key)).Nodup) :
    reconstructOutcome ((P ++ c ++ R).map MergedRecord.ordinary ++ [MergedRecord.metadata m])
      { basename := name
      , resourceCount := c.length
      , keptCount := c.length
      , overwrittenCount := 0
      , ranges := if c.length = 0 then [] else [(P.length, P.length + c.length - 1)]
      , recordHashes := c.map (fun r => (r.key, payloadHash r.payload))
      , overwrittenKeys := [] } =
      { descriptor :=
          { basename := name
          , resourceCount := c.length
          , keptCount := c.length
          , overwrittenCount := 0
          , ranges := if c.length = 0 then [] else [(P.length, P.length + c.length - 1)]
          , recordHashes := c.map (fun r => (r.key, payloadHash r.payload))
          , overwrittenKeys := [] }
      , records := c
      , success := true
      , mismatchedKeys := []
      , missingKeys := [] } := by
  by_cases hc : c = []
  · subst hc
    simp [reconstructOutcome]
  · have hc0 : ¬(c.length = 0) := fun h0 => hc (List.length_eq_zero.mp h0)
    unfold reconstructOutcome
    simp only [if_neg hc0, List.flatMap_cons, List.flatMap_nil, List.append_nil]
    rw [sliceRange_clean P c R m hc, filterMap_ordinary]
    rw [mismatched_empty_clean c hn]
    simp [if_neg hc0]

/-- The records of a middle block have distinct keys when the whole
concatenation has distinct keys. -/
theorem nodup_middle (P c R : Container)
    (hn : ((P ++ c ++ R).map (fun r => r.key)).Nodup) :
    (c.map (fun r => r.key)).Nodup := by
  have hsub : List.Sublist (c.map (fun r => r.key))
      ((P ++ c ++ R).map (fun r => r.key)) := by
    refine List.Sublist.map _ ?_
    have h1 : List.Sublist c (c ++ R) := List.sublist_append_left _ _
    have h2 : List.Sublist (c ++ R) (P ++ (c ++ R)) := List.sublist_append_right _ _
    rw [List.append_assoc]
    exact h1.trans h2
  exact List.Nodup.sublist hsub hn

/-- Reconstructing every clean descriptor of a suffix of the merged group
recovers the corresponding inputs, in order and successfully. -/
theorem reconstruct_clean (gAll : List (String × Container)) (m : MergeMetadata)
    (hn : ((joinRecs gAll).map (fun r => r.key)).Nodup) :
    ∀ (gsuf gpre : List (String × Container)), gAll = gpre ++ gsuf →
      List.Forall₂
        (fun (out : UnmergeOutcome) (inp : String × Container) =>
          out.records = inp.2 ∧ out.success = true ∧ out.descriptor.basename = inp.1)
        ((cleanDescs (joinRecs gpre).length gsuf).map
          (reconstructOutcome ((joinRecs gAll).map MergedRecord.ordinary ++
            [MergedRecord.metadata m])))
        gsuf := by
  intro gsuf
  induction gsuf with
  | nil =>
    intro gpre hsplit
    simp [cleanDescs]
  | cons inp rest ih =>
    intro gpre hsplit
    rcases inp with ⟨name, c⟩
    have hdecomp : joinRecs gAll = joinRecs gpre ++ c ++ joinRecs rest := by
      rw [hsplit, joinRecs_append]
      simp [joinRecs, List.append_assoc]
    have hnc : (c.map (fun r => r.key)).Nodup := by
      rw [hdecomp] at hn
      exact nodup_middle _ c _ hn
    simp only [cleanDescs, List.map_cons]
    refine List.Forall₂.cons ?_ ?_
    · have := reconstructOutcome_clean (joinRecs gpre) c (joinRecs rest) m name hnc
      rw [hdecomp]
      rw [this]
      exact ⟨rfl, rfl, rfl⟩
    · have hsplit2 : gAll = (gpre ++ [(name, c)]) ++ rest := by
        rw [hsplit]
        simp
      have hlen : (joinRecs (gpre ++ [(name, c)])).length = (joinRecs gpre).length + c.length := by
        rw [joinRecs_append]
        simp [joinRecs]
      have := ih (gpre ++ [(name, c)]) hsplit2
      rw [hlen] at this
      exact this

/-- Unmerging a part built from inputs with distinct keys succeeds with one
outcome per descriptor. -/
theorem unmerge_clean (opts : MergeOptions) (g : List (String × Container))
    (hn : ((joinRecs g).map (fun r => r.key)).Nodup) :
    unmerge (buildPart opts g) =
      .ok ((cleanDescs 0 g).map
        (reconstructOutcome ((joinRecs g).map MergedRecord.ordinary ++
          [MergedRecord.metadata
            { version := METADATA_VERSION, tool := "s4merge"
            , descriptors := cleanDescs 0 g, options := opts }]))) := by
  rw [buildPart_clean opts g hn]
  unfold unmerge
  rw [findMetadata_clean]
  simp

set_option linter.unnecessarySimpa false in
/-- A member of a list of lists is a sublist of its flattening. -/
theorem sublist_flatten_of_mem {α : Type} :
    ∀ (L : List (List α)) (l : List α), l ∈ L → List.Sublist l L.flatten := by
  intro L
  induction L with
  | nil =>
    intro l hl
    cases hl
  | cons x rest ih =>
    intro l hl
    rcases List.mem_cons.mp hl with h | h
    · subst h
      simpa using List.sublist_append_left l rest.flatten
    · simpa using ((ih l h).trans (List.sublist_append_right x rest.flatten))

/-- Group records concatenate to the records of the flattened groups. -/
theorem joinRecs_flatten (groups : List (List (String × Container))) :
    joinRecs groups.flatten = (groups.map joinRecs).flatten := by
  induction groups with
  | nil => rfl
  | cons g rest ih =>
    simp [joinRecs_append, ih]

/-- The unmerge outcomes of the parts of a clean plan relate pointwise to
the flattened inputs. -/
theorem unmergeList_clean (opts : MergeOptions) :
    ∀ (groups : List (List (String × Container))),
      (∀ g ∈ groups, ((joinRecs g).map (fun r => r.key)).Nodup) →
      List.Forall₂
        (fun (out : UnmergeOutcome) (inp : String × Container) =>
          out.records = inp.2 ∧ out.success = true ∧ out.descriptor.basename = inp.1)
        (unmergeList (groups.map (buildPart opts))) groups.flatten := by
  intro groups
  induction groups with
  | nil =>
    intro _
    simp [unmergeList]
  | cons g rest ih =>
    intro hnd
    have hng : ((joinRecs g).map (fun r => r.key)).Nodup := hnd g (by simp)
    have hgroup := reconstruct_clean g
      { version := METADATA_VERSION, tool := "s4merge"
      , descriptors := cleanDescs 0 g, options := opts } hng g [] (by simp)
    simp only [joinRecs] at hgroup
    have hgroup2 := hgroup
    simp only [unmergeList, List.map_cons, List.flatMap_cons, List.flatten_cons]
    rw [unmerge_clean opts g hng]
    refine List.rel_append ?_ ?_
    · simpa [joinRecs] using hgroup2
    · exact ih (fun g2 hg2 => hnd g2 (by simp [hg2]))

/-- C2: with no key collisions across the inputs, unmerging the output of
the merge yields, for each original input in order, a reconstructed
container whose record list (hence key set and payload bytes) is identical
to that input, with a successful outcome carrying its basename. -/
theorem merge_unmerge_roundtrip (sup : Bool) (decode : List Nat → Option Container)
    (opts : MergeOptions) (rawInputs : List (String × List Nat))
    (inputs : List (String × Container))
    (hdec : decodeAllInputs decode rawInputs = .ok inputs)
    (hpol : ¬(opts.policy = .shadowOriginal ∧ ¬sup))
    (hkeys : ((joinRecs inputs).map (fun r => r.key)).Nodup) :
    ∃ parts, mergeGroup sup decode opts rawInputs = .ok parts ∧
      (∀ part ∈ parts, ∃ outs, unmerge part = .ok outs) ∧
      List.Forall₂
        (fun (out : UnmergeOutcome) (inp : String × Container) =>
          out.records = inp.2 ∧ out.success = true ∧ out.descriptor.basename = inp.1)
        (unmergeList parts) inputs := by
  have hgs : ∀ g ∈ planParts opts.maxPartSizeBytes inputs,
      ((joinRecs g).map (fun r => r.key)).Nodup := by
    intro g hg
    have hflat := planParts_flatten opts.maxPartSizeBytes inputs
    have hsub : List.Sublist (joinRecs g) (joinRecs inputs) := by
      rw [← hflat, joinRecs_flatten]
      exact sublist_flatten_of_mem _ _ (List.mem_map_of_mem joinRecs hg)
    exact List.Nodup.sublist (hsub.map _) hkeys
  refine ⟨(planParts opts.maxPartSizeBytes inputs).map (buildPart opts), ?_, ?_, ?_⟩
  · unfold mergeGroup
    rw [if_neg hpol, hdec]
  · intro part hpart
    rcases List.mem_map.mp hpart with ⟨g, hg, hbuild⟩
    subst hbuild
    exact ⟨_, unmerge_clean opts g (hgs g hg)⟩
  · have := unmergeList_clean opts (planParts opts.maxPartSizeBytes inputs) hgs
    rwa [planParts_flatten opts.maxPartSizeBytes inputs] at this

/-- Witness for C2 at concrete inputs: the three one-record witness inputs
with pairwise distinct keys merge and unmerge back to themselves. -/
theorem merge_unmerge_roundtrip_witness :
    ∃ parts, mergeGroup true witnessDecode witnessOptsNoCap witnessRaws = .ok parts ∧
      (∀ part ∈ parts, ∃ outs, unmerge part = .ok outs) ∧
      List.Forall₂
        (fun (out : UnmergeOutcome) (inp : String × Container) =>
          out.records = inp.2 ∧ out.success = true ∧ out.descriptor.basename = inp.1)
        (unmergeList parts) witnessInputs :=
  merge_unmerge_roundtrip true witnessDecode witnessOptsNoCap witnessRaws
    witnessInputs rfl (by decide) (by decide)

/-- The ordinary records of a clean part are exactly its input records. -/
theorem filterMap_clean_part (l : Container) (m : MergeMetadata) :
    ((l.map MergedRecord.ordinary) ++ [MergedRecord.metadata m]).filterMap
      MergedRecord.ordinaryRec = l := by
  rw [List.filterMap_append, filterMap_ordinary]
  simp [MergedRecord.ordinaryRec]

/-- The rollover plan for three inputs whose cumulative estimated size
crosses the cap exactly when the third is appended: the first part holds
the first two inputs and the second part holds the third. -/
theorem planParts_abc (A B C : String × Container) (cap : Nat)
    (hAB : estContainerSize A.2 + estContainerSize B.2 ≤ cap)
    (hABC : estContainerSize A.2 + estContainerSize B.2 + estContainerSize C.2 > cap) :
    planParts (some cap) [A, B, C] = [[A, B], [C]] := by
  show planPartsGo cap [] 0 [A, B, C] = [[A, B], [C]]
  rw [planPartsGo.eq_def]
  simp only
  rw [if_neg (by simp)]
  rw [planPartsGo.eq_def]
  simp only
  rw [if_neg (by simp only [ne_eq, not_and, not_lt]; intro _; omega)]
  rw [planPartsGo.eq_def]
  simp only
  rw [if_pos ⟨by simp, by omega⟩]
  rw [planPartsGo.eq_def]
  simp only
  rw [if_neg (by simp)]
  simp

/-- C4: with a configured maximum part size the merge never splits one
input across two output parts — the parts are built from whole inputs that
partition the ordered input list — and for inputs A, B, C whose cumulative
estimated size crosses the cap exactly when appending C, part 1 holds
exactly A and B and part 2 holds exactly C. -/
theorem merge_never_splits_input :
    (∀ (sup : Bool) (decode : List Nat → Option Container) (opts : MergeOptions)
       (rawInputs : List (String × List Nat)) (inputs : List (String × Container)),
       decodeAllInputs decode rawInputs = .ok inputs →
       ¬(opts.policy = .shadowOriginal ∧ ¬sup) →
       ∃ groups : List (List (String × Container)),
         mergeGroup sup decode opts rawInputs = .ok (groups.map (buildPart opts)) ∧
         groups.flatten = inputs ∧ ∀ g ∈ groups, g ≠ []) ∧
    (∀ (sup : Bool) (decode : List Nat → Option Container) (opts : MergeOptions)
       (rawInputs : List (String × List Nat)) (A B C : String × Container) (cap : Nat),
       decodeAllInputs decode rawInputs = .ok [A, B, C] →
       ¬(opts.policy = .shadowOriginal ∧ ¬sup) →
       opts.maxPartSizeBytes = some cap →
       estContainerSize A.2 + estContainerSize B.2 ≤ cap →
       estContainerSize A.2 + estContainerSize B.2 + estContainerSize C.2 > cap →
       ((A.2 ++ B.2 ++ C.2).map (fun r => r.key)).Nodup →
       mergeGroup sup decode opts rawInputs =
         .ok [buildPart opts [A, B], buildPart opts [C]] ∧
       (buildPart opts [A, B]).filterMap MergedRecord.ordinaryRec = A.2 ++ B.2 ∧
       (buildPart opts [C]).filterMap MergedRecord.ordinaryRec = C.2) := by
  constructor
  · intro sup decode opts rawInputs inputs hdec hpol
    refine ⟨planParts opts.maxPartSizeBytes inputs, ?_, planParts_flatten _ _, ?_⟩
    · unfold mergeGroup
      rw [if_neg hpol, hdec]
    · intro g hg
      cases hcap : opts.maxPartSizeBytes with
      | none =>
        rw [hcap] at hg
        simp only [planParts] at hg
        by_cases hin : inputs = []
        · rw [if_pos hin] at hg
          cases hg
        · rw [if_neg hin] at hg
          rw [List.mem_singleton.mp hg]
          exact hin
      | some cap =>
        rw [hcap] at hg
        exact planPartsGo_ne_nil cap inputs [] 0 g hg
  · intro sup decode opts rawInputs A B C cap hdec hpol hcap hAB hABC hkeys
    have hnAB : ((joinRecs [A, B]).map (fun r => r.key)).Nodup := by
      have hsub : List.Sublist ((joinRecs [A, B]).map (fun r => r.key))
          ((A.2 ++ B.2 ++ C.2).map (fun r => r.key)) := by
        refine List.Sublist.map _ ?_
        simp only [joinRecs, List.map_cons, List.map_nil, List.flatten_cons,
          List.flatten_nil, List.append_nil]
        exact List.sublist_append_left _ _
      exact List.Nodup.sublist hsub hkeys
    have hnC : ((joinRecs [C]).map (fun r => r.key)).Nodup := by
      have hsub : List.Sublist ((joinRecs [C]).map (fun r => r.key))
          ((A.2 ++ B.2 ++ C.2).map (fun r => r.key)) := by
        refine List.Sublist.map _ ?_
        simp only [joinRecs, List.map_cons, List.map_nil, List.flatten_cons,
          List.flatten_nil, List.append_nil]
        exact List.sublist_append_right _ _
      exact List.Nodup.sublist hsub hkeys
    refine ⟨?_, ?_, ?_⟩
    · unfold mergeGroup
      rw [if_neg hpol, hdec]
      show Except.ok ((planParts opts.maxPartSizeBytes [A, B, C]).map (buildPart opts)) =
        Except.ok [buildPart opts [A, B], buildPart opts [C]]
      rw [hcap, planParts_abc A B C cap hAB hABC]
      simp
    · rw [buildPart_clean opts [A, B] hnAB, filterMap_clean_part]
      simp [joinRecs]
    · rw [buildPart_clean opts [C] hnC, filterMap_clean_part]
      simp [joinRecs]

/-- Witness for C4 at concrete inputs: the capped witness merge (cap 70,
each input estimated at 33 bytes) puts inputs a and b in part 1 and input c
in part 2, with no input split. -/
theorem merge_never_splits_input_witness :
    mergeGroup true witnessDecode witnessOptsCap witnessRaws =
      .ok [buildPart witnessOptsCap [("a", [{ key := { typeId := 1, group := 1, instanceId := 1 }, payload := [1] }]),
                                     ("b", [{ key := { typeId := 2, group := 1, instanceId := 1 }, payload := [2] }])],
           buildPart witnessOptsCap [("c", [{ key := { typeId := 3, group := 1, instanceId := 1 }, payload := [3] }])]] :=
  (merge_never_splits_input.2 true witnessDecode witnessOptsCap witnessRaws
    ("a", [{ key := { typeId := 1, group := 1, instanceId := 1 }, payload := [1] }])
    ("b", [{ key := { typeId := 2, group := 1, instanceId := 1 }, payload := [2] }])
    ("c", [{ key := { typeId := 3, group := 1, instanceId := 1 }, payload := [3] }])
    70 rfl (by decide) rfl (by decide) (by decide) (by decide)).1

/-- The modelled folded form is one code point. -/
theorem foldedCodePoints_eq (c : Nat) : foldedCodePoints c = [foldChar c] := by
  unfold foldedCodePoints foldChar
  split <;> rfl

/-- Sort key block structure: each character contributes its flag, folded
code point and original code point. -/
theorem encKey_cons (c : Nat) (s : List Nat) :
    encKey (c :: s) =
      (if c ≤ ASCII_PRIORITY_LIMIT then 0 else 1) :: foldChar c :: c :: encKey s := by
  unfold encKey buildSortKey
  simp [foldedCodePoints_eq]

/-- The encoded key of the empty string is empty. -/
theorem encKey_nil : encKey [] = [] := rfl

/-- Each character contributes exactly three sort key entries. -/
theorem encKey_length (s : List Nat) : (encKey s).length = 3 * s.length := by
  induction s with
  | nil => rfl
  | cons c rest ih =>
    rw [encKey_cons]
    simp [ih]
    omega

/-- Head step of the first-difference comparison. -/
theorem firstDelta_cons (x y : Nat) (u v : List Nat) :
    firstDelta (x :: u) (y :: v) =
      if x = y then firstDelta u v else (x : Int) - (y : Int) := rfl

/-- The first difference is antisymmetric. -/
theorem firstDelta_antisymm : ∀ u v : List Nat, firstDelta u v = -firstDelta v u := by
  intro u
  induction u with
  | nil =>
    intro v
    cases v <;> simp [firstDelta]
  | cons x rest ih =>
    intro v
    cases v with
    | nil => simp [firstDelta]
    | cons y vrest =>
      rw [firstDelta_cons, firstDelta_cons]
      by_cases h : x = y
      · subst h
        rw [if_pos rfl, if_pos rfl]
        exact ih vrest
      · rw [if_neg h, if_neg (fun h2 => h h2.symm)]
        omega

/-- A nonzero first difference comes from a genuinely different position. -/
theorem firstDelta_ne_zero_of_ne (x y : Nat) (u v : List Nat) (h : x ≠ y) :
    firstDelta (x :: u) (y :: v) ≠ 0 := by
  rw [firstDelta_cons, if_neg h]
  intro h0
  apply h
  omega

/-- Head step of the normal form comparison. -/
theorem listCmp_cons (x y : Nat) (u v : List Nat) :
    listCmp (x :: u) (y :: v) =
      if x = y then listCmp u v else (x : Int) - (y : Int) := by
  by_cases h : x = y
  · subst h
    rw [if_pos rfl]
    unfold listCmp
    rw [firstDelta_cons, if_pos rfl]
    by_cases h2 : firstDelta u v ≠ 0
    · rw [if_pos h2, if_pos h2]
    · rw [if_neg h2, if_neg h2]
      simp
  · rw [if_neg h]
    unfold listCmp
    rw [firstDelta_cons, if_neg h]
    rw [if_pos (by intro h0; exact h (by omega))]

/-- Normal form comparison against the empty list. -/
theorem listCmp_nil_left (v : List Nat) : listCmp [] v = -(v.length : Int) := by
  unfold listCmp
  cases v <;> simp [firstDelta]

/-- Normal form comparison of the empty list on the right. -/
theorem listCmp_nil_right (u : List Nat) : listCmp u [] = (u.length : Int) := by
  unfold listCmp
  cases u <;> simp [firstDelta]

/-- The normal form comparison is zero exactly on equal lists. -/
theorem listCmp_eq_zero_iff : ∀ u v : List Nat, listCmp u v = 0 ↔ u = v := by
  intro u
  induction u with
  | nil =>
    intro v
    rw [listCmp_nil_left]
    cases v with
    | nil => simp
    | cons z r =>
      simp
      omega
  | cons x rest ih =>
    intro v
    cases v with
    | nil =>
      rw [listCmp_nil_right]
      simp
      omega
    | cons y vrest =>
      rw [listCmp_cons]
      by_cases h : x = y
      · subst h
        rw [if_pos rfl]
        rw [ih vrest]
        simp
      · rw [if_neg h]
        constructor
        · intro h0
          exact absurd (by omega : x = y) h
        · intro h0
          cases h0
          exact absurd rfl h

/-- The strict order induced by the normal form comparison is transitive. -/
theorem listCmp_trans_neg : ∀ u v w : List Nat,
    listCmp u v < 0 → listCmp v w < 0 → listCmp u w < 0 := by
  intro u
  induction u with
  | nil =>
    intro v w h1 h2
    rw [listCmp_nil_left] at h1 ⊢
    cases w with
    | nil =>
      rw [listCmp_nil_right] at h2
      omega
    | cons z wrest =>
      simp
      omega
  | cons x rest ih =>
    intro v w h1 h2
    cases v with
    | nil =>
      rw [listCmp_nil_right] at h1
      omega
    | cons y vrest =>
      cases w with
      | nil =>
        rw [listCmp_nil_right] at h2
        omega
      | cons z wrest =>
        rw [listCmp_cons] at h1 h2 ⊢
        by_cases hxy : x = y
        · subst hxy
          rw [if_pos rfl] at h1
          by_cases hyz : x = z
          · subst hyz
            rw [if_pos rfl] at h2 ⊢
            exact ih vrest wrest h1 h2
          · rw [if_neg hyz] at h2 ⊢
            exact h2
        · rw [if_neg hxy] at h1
          by_cases hyz : y = z
          · subst hyz
            rw [if_neg hxy]
            exact h1
          · rw [if_neg hyz] at h2
            have hxz : ¬(x = z) := by omega
            rw [if_neg hxz]
            omega

/-- When the encoded keys have no first difference, one string is a prefix
of the other. -/
theorem encKey_delta_zero : ∀ a b : List Nat,
    firstDelta (encKey a) (encKey b) = 0 → a <+: b ∨ b <+: a := by
  intro a
  induction a with
  | nil =>
    intro b _
    exact .inl List.nil_prefix
  | cons x rest ih =>
    intro b h
    cases b with
    | nil => exact .inr List.nil_prefix
    | cons y brest =>
      rw [encKey_cons, encKey_cons] at h
      by_cases h1 : (if x ≤ ASCII_PRIORITY_LIMIT then (0 : Nat) else 1) =
          (if y ≤ ASCII_PRIORITY_LIMIT then (0 : Nat) else 1)
      · rw [firstDelta_cons, if_pos h1] at h
        by_cases h2 : foldChar x = foldChar y
        · rw [firstDelta_cons, if_pos h2] at h
          by_cases h3 : x = y
          · subst h3
            rw [firstDelta_cons, if_pos rfl] at h
            rcases ih brest h with hp | hp
            · exact .inl (List.cons_prefix_cons.mpr ⟨rfl, hp⟩)
            · exact .inr (List.cons_prefix_cons.mpr ⟨rfl, hp⟩)
          · exact absurd h (firstDelta_ne_zero_of_ne x y _ _ h3)
        · exact absurd h (firstDelta_ne_zero_of_ne _ _ _ _ h2)
      · exact absurd h (firstDelta_ne_zero_of_ne _ _ _ _ h1)

/-- Unequal strings with agreeing encoded keys differ in length. -/
theorem length_ne_of_delta_zero (a b : List Nat) (hne : a ≠ b)
    (h : firstDelta (encKey a) (encKey b) = 0) : a.length ≠ b.length := by
  intro hlen
  rcases encKey_delta_zero a b h with hp | hp
  · exact hne (List.IsPrefix.eq_of_length hp hlen)
  · exact hne (List.IsPrefix.eq_of_length hp hlen.symm).symm

/-- Normal form of stableCompare on unequal strings: the first difference
of the encoded keys, falling back to the code-point length difference. -/
theorem stableCompare_eq_form (a b : List Nat) (hne : a ≠ b) :
    stableCompare a b =
      if firstDelta (encKey a) (encKey b) ≠ 0 then firstDelta (encKey a) (encKey b)
      else (a.length : Int) - (b.length : Int) := by
  unfold stableCompare
  rw [if_neg hne]
  show (if firstDelta (encKey a) (encKey b) ≠ 0 then firstDelta (encKey a) (encKey b)
    else if (buildSortKey a).normalizedCodePoints.length ≠
        (buildSortKey b).normalizedCodePoints.length then
      ((buildSortKey a).normalizedCodePoints.length : Int) -
        ((buildSortKey b).normalizedCodePoints.length : Int)
    else compareCodePoints (buildSortKey a).normalizedCodePoints
      (buildSortKey b).normalizedCodePoints) = _
  by_cases h : firstDelta (encKey a) (encKey b) ≠ 0
  · rw [if_pos h, if_pos h]
  · rw [if_neg h, if_neg h]
    push_neg at h
    have hlen : a.length ≠ b.length := length_ne_of_delta_zero a b hne h
    show (if a.length ≠ b.length then (a.length : Int) - (b.length : Int)
      else compareCodePoints a b) = _
    rw [if_pos hlen]

/-- Sign bridge: the stableCompare sign on unequal strings is the listCmp
sign on their encoded keys. -/
theorem stableCompare_neg_iff (a b : List Nat) (hne : a ≠ b) :
    stableCompare a b < 0 ↔ listCmp (encKey a) (encKey b) < 0 := by
  rw [stableCompare_eq_form a b hne]
  unfold listCmp
  by_cases h : firstDelta (encKey a) (encKey b) ≠ 0
  · rw [if_pos h, if_pos h]
  · rw [if_neg h, if_neg h]
    rw [encKey_length, encKey_length]
    constructor
    · intro h2
      have : a.length < b.length := by omega
      omega
    · intro h2
      have : 3 * a.length < 3 * b.length := by omega
      omega

/-- Equal strings compare equal. -/
theorem stableCompare_self (a : List Nat) : stableCompare a a = 0 := by
  unfold stableCompare
  rw [if_pos rfl]

/-- Unequal strings never compare equal. -/
theorem stableCompare_ne_zero (a b : List Nat) (hne : a ≠ b) :
    stableCompare a b ≠ 0 := by
  rw [stableCompare_eq_form a b hne]
  by_cases h : firstDelta (encKey a) (encKey b) ≠ 0
  · rw [if_pos h]
    exact h
  · rw [if_neg h]
    push_neg at h
    have hlen := length_ne_of_delta_zero a b hne h
    intro h2
    exact hlen (by omega)

/-- C8: the deterministic comparator stableCompare defines a stable,
locale-independent total preorder on strings (modelled at the code-point
level with the ASCII case mapping for the external toLowerCase): it is
reflexive, the two orientations of a comparison are both zero or of
opposite sign, and the induced strict order is transitive. -/
theorem stableCompare_total_preorder :
    (∀ a : List Nat, stableCompare a a = 0) ∧
    (∀ a b : List Nat,
      (stableCompare a b = 0 ∧ stableCompare b a = 0) ∨
      (stableCompare a b < 0 ∧ stableCompare b a > 0) ∨
      (stableCompare a b > 0 ∧ stableCompare b a < 0)) ∧
    (∀ a b c : List Nat, stableCompare a b < 0 → stableCompare b c < 0 →
      stableCompare a c < 0) := by
  refine ⟨stableCompare_self, ?_, ?_⟩
  · intro a b
    by_cases hne : a = b
    · subst hne
      exact .inl ⟨stableCompare_self a, stableCompare_self a⟩
    · have hne2 : b ≠ a := fun h => hne h.symm
      rw [stableCompare_eq_form a b hne, stableCompare_eq_form b a hne2]
      have hanti := firstDelta_antisymm (encKey a) (encKey b)
      by_cases h : firstDelta (encKey a) (encKey b) ≠ 0
      · rw [if_pos h, if_pos (by omega)]
        rcases lt_or_gt_of_ne h with hlt | hgt
        · exact .inr (.inl ⟨hlt, by omega⟩)
        · exact .inr (.inr ⟨hgt, by omega⟩)
      · push_neg at h
        rw [if_neg (by simpa using h), if_neg (by omega)]
        have hlen := length_ne_of_delta_zero a b hne h
        have hlen2 : (a.length : Int) ≠ (b.length : Int) := by
          intro h2
          exact hlen (by omega)
        rcases lt_or_gt_of_ne hlen2 with hlt | hgt
        · exact .inr (.inl ⟨by omega, by omega⟩)
        · exact .inr (.inr ⟨by omega, by omega⟩)
  · intro a b c hab hbc
    have hne1 : a ≠ b := by
      intro h
      subst h
      rw [stableCompare_self] at hab
      omega
    have hne2 : b ≠ c := by
      intro h
      subst h
      rw [stableCompare_self] at hbc
      omega
    have hne3 : a ≠ c := by
      intro h
      subst h
      rw [stableCompare_neg_iff a b hne1] at hab
      rw [stableCompare_neg_iff b a (fun h2 => hne1 h2.symm)] at hbc
      have htr := listCmp_trans_neg _ _ _ hab hbc
      have h0 : listCmp (encKey a) (encKey a) = 0 := (listCmp_eq_zero_iff _ _).mpr rfl
      omega
    rw [stableCompare_neg_iff a b hne1] at hab
    rw [stableCompare_neg_iff b c hne2] at hbc
    rw [stableCompare_neg_iff a c hne3]
    exact listCmp_trans_neg _ _ _ hab hbc

/-- Witness for C8 at concrete strings: a precedes b, b precedes c, and the
transitivity of the theorem gives a precedes c. -/
theorem stableCompare_total_preorder_witness :
    stableCompare [97] [98] < 0 ∧ stableCompare [98] [99] < 0 ∧
      stableCompare [97] [99] < 0 :=
  ⟨by decide, by decide,
    stableCompare_total_preorder.2.2 [97] [98] [99] (by decide) (by decide)⟩

/-- Join of a list with at least two segments. -/
theorem joinSlash_cons₂ (s t : JStr) (ts : List JStr) :
    joinSlash (s :: t :: ts) = s ++ '/' :: joinSlash (t :: ts) := rfl

/-- Every character of a joined segment list is a separator or a character
of some segment. -/
theorem mem_joinSlash : ∀ (segs : List JStr) (c : Char), c ∈ joinSlash segs →
    c = '/' ∨ ∃ s ∈ segs, c ∈ s := by
  intro segs
  induction segs with
  | nil =>
    intro c hc
    cases hc
  | cons s rest ih =>
    intro c hc
    cases rest with
    | nil =>
      exact .inr ⟨s, by simp, hc⟩
    | cons t ts =>
      rw [joinSlash_cons₂] at hc
      rcases List.mem_append.mp hc with h | h
      · exact .inr ⟨s, by simp, h⟩
      · rcases List.mem_cons.mp h with h2 | h2
        · exact .inl h2
        · rcases ih c h2 with h3 | ⟨u, hu, hcu⟩
          · exact .inl h3
          · exact .inr ⟨u, by simp [hu], hcu⟩

/-- Joining backslash-free segments yields a backslash-free string. -/
theorem joinSlash_no_backslash (segs : List JStr)
    (h : ∀ s ∈ segs, '\\' ∉ s) : '\\' ∉ joinSlash segs := by
  intro hc
  rcases mem_joinSlash segs '\\' hc with h2 | ⟨s, hs, hcs⟩
  · cases h2
  · exact h s hs hcs

/-- Slash normalization is the identity on backslash-free strings. -/
theorem normalizeUnicodeAndSlashes_id (s : JStr) (h : '\\' ∉ s) :
    normalizeUnicodeAndSlashes s = s := by
  induction s with
  | nil => rfl
  | cons c rest ih =>
    unfold normalizeUnicodeAndSlashes
    simp only [List.map_cons]
    rw [if_neg (by intro h2; exact h (by simp [h2]))]
    have := ih (fun h2 => h (by simp [h2]))
    unfold normalizeUnicodeAndSlashes at this
    rw [this]

/-- The slash normalization never produces a backslash. -/
theorem normalizeUnicodeAndSlashes_no_backslash (s : JStr) :
    '\\' ∉ normalizeUnicodeAndSlashes s := by
  intro h
  rcases List.mem_map.mp h with ⟨c, _, hc⟩
  by_cases h2 : c = '\\' <;> simp [h2] at hc

/-- Dropping leading slashes from a slash-free-headed string is the
identity. -/
theorem dropLeadingSlashes_id (s : JStr)
    (h : ∀ c t, s = c :: t → c ≠ '/') : dropLeadingSlashes s = s := by
  cases s with
  | nil => rfl
  | cons c t =>
    unfold dropLeadingSlashes
    rw [if_neg (h c t rfl)]

/-- Cons-step equation of the split. -/
theorem splitOnSlash_cons (c : Char) (rest : JStr) :
    splitOnSlash (c :: rest) =
      if c = '/' then [] :: splitOnSlash rest
      else consHead c (splitOnSlash rest) := by
  rw [splitOnSlash]

/-- Splitting a slash-free string gives that string as the one segment. -/
theorem splitOnSlash_no_slash : ∀ s : JStr, '/' ∉ s → splitOnSlash s = [s] := by
  intro s
  induction s with
  | nil =>
    intro _
    rfl
  | cons c rest ih =>
    intro h
    rw [splitOnSlash_cons]
    rw [if_neg (by intro h2; exact h (by simp [h2]))]
    rw [ih (fun h2 => h (by simp [h2]))]
    rfl

/-- Splitting separates at the first separator after a slash-free block. -/
theorem splitOnSlash_append : ∀ (s t : JStr), '/' ∉ s →
    splitOnSlash (s ++ '/' :: t) = s :: splitOnSlash t := by
  intro s
  induction s with
  | nil =>
    intro t _
    simp [splitOnSlash]
  | cons c rest ih =>
    intro t h
    simp only [List.cons_append]
    rw [splitOnSlash_cons]
    rw [if_neg (by intro h2; exact h (by simp [h2]))]
    rw [ih t (fun h2 => h (by simp [h2]))]
    rfl

/-- Splitting the join of slash-free nonempty segments recovers them. -/
theorem splitOnSlash_joinSlash : ∀ segs : List JStr, segs ≠ [] →
    (∀ s ∈ segs, '/' ∉ s) → splitOnSlash (joinSlash segs) = segs := by
  intro segs
  induction segs with
  | nil =>
    intro h _
    cases h rfl
  | cons s rest ih =>
    intro _ h
    cases rest with
    | nil =>
      exact splitOnSlash_no_slash s (h s (by simp))
    | cons t ts =>
      rw [joinSlash_cons₂]
      rw [splitOnSlash_append s _ (h s (by simp))]
      rw [ih (by simp) (fun u hu => h u (by simp [hu]))]

/-- Base equation of the segment resolution loop. -/
theorem resolveSegsRev_nil (allow : Bool) (acc : List JStr) :
    resolveSegsRev allow acc [] = acc := by
  rw [resolveSegsRev.eq_def]

/-- Empty and dot segments are skipped. -/
theorem resolveSegsRev_skip (allow : Bool) (acc : List JStr) (raw : JStr)
    (rest : List JStr) (h : raw = [] ∨ raw = ['.']) :
    resolveSegsRev allow acc (raw :: rest) = resolveSegsRev allow acc rest := by
  rw [resolveSegsRev.eq_def]
  dsimp only
  rw [if_pos h]

/-- Ordinary segments are pushed. -/
theorem resolveSegsRev_push (allow : Bool) (acc : List JStr) (raw : JStr)
    (rest : List JStr) (h1 : ¬(raw = [] ∨ raw = ['.'])) (h2 : raw ≠ ['.', '.']) :
    resolveSegsRev allow acc (raw :: rest) =
      resolveSegsRev allow (raw :: acc) rest := by
  rw [resolveSegsRev.eq_def]
  dsimp only
  rw [if_neg h1, if_neg h2]

/-- A parent segment pops a preceding ordinary segment. -/
theorem resolveSegsRev_dd_pop (allow : Bool) (top : JStr) (accTail : List JStr)
    (rest : List JStr) (h : top ≠ ['.', '.']) :
    resolveSegsRev allow (top :: accTail) (['.', '.'] :: rest) =
      resolveSegsRev allow accTail rest := by
  rw [resolveSegsRev.eq_def]
  dsimp only
  rw [if_neg (show ¬((['.', '.'] : JStr) = [] ∨ (['.', '.'] : JStr) = ['.']) by simp)]
  rw [if_pos (show (['.', '.'] : JStr) = ['.', '.'] from rfl)]
  rw [if_pos h]

/-- A parent segment above a kept parent segment is kept when orphans are
allowed and discarded otherwise. -/
theorem resolveSegsRev_dd_dd (allow : Bool) (accTail : List JStr)
    (rest : List JStr) :
    resolveSegsRev allow (['.', '.'] :: accTail) (['.', '.'] :: rest) =
      if allow then resolveSegsRev allow (['.', '.'] :: ['.', '.'] :: accTail) rest
      else resolveSegsRev allow (['.', '.'] :: accTail) rest := by
  rw [resolveSegsRev.eq_def]
  dsimp only
  rw [if_neg (show ¬((['.', '.'] : JStr) = [] ∨ (['.', '.'] : JStr) = ['.']) by simp)]
  rw [if_pos (show (['.', '.'] : JStr) = ['.', '.'] from rfl)]
  rw [if_neg (show ¬((['.', '.'] : JStr) ≠ ['.', '.']) by simp)]

/-- A parent segment above an empty stack is kept when orphans are allowed
and discarded otherwise. -/
theorem resolveSegsRev_dd_nil (allow : Bool) (rest : List JStr) :
    resolveSegsRev allow [] (['.', '.'] :: rest) =
      if allow then resolveSegsRev allow [['.', '.']] rest
      else resolveSegsRev allow [] rest := by
  rw [resolveSegsRev.eq_def]
  dsimp only
  rw [if_neg (show ¬((['.', '.'] : JStr) = [] ∨ (['.', '.'] : JStr) = ['.']) by simp)]
  rw [if_pos (show (['.', '.'] : JStr) = ['.', '.'] from rfl)]

/-- Invariant of the resolution loop: from a stack of ordinary segments
above a run of kept parent segments, separator-free raw segments keep that
shape, and orphan parent segments appear only when allowed. -/
theorem resolveSegsRev_canon (allow : Bool) :
    ∀ (raws coreRev : List JStr) (k : Nat),
      (∀ s ∈ raws, '/' ∉ s ∧ '\\' ∉ s) →
      (∀ s ∈ coreRev, coreSeg s) →
      (allow = false → k = 0) →
      ∃ coreRev2 k2, (∀ s ∈ coreRev2, coreSeg s) ∧ (allow = false → k2 = 0) ∧
        resolveSegsRev allow (coreRev ++ List.replicate k dd) raws =
          coreRev2 ++ List.replicate k2 dd := by
  intro raws
  induction raws with
  | nil =>
    intro coreRev k _ hcore hk
    exact ⟨coreRev, k, hcore, hk, resolveSegsRev_nil _ _⟩
  | cons raw rest ih =>
    intro coreRev k hns hcore hk
    have hnsrest : ∀ s ∈ rest, '/' ∉ s ∧ '\\' ∉ s :=
      fun s hs => hns s (by simp [hs])
    by_cases hskip : raw = [] ∨ raw = ['.']
    · rcases ih coreRev k hnsrest hcore hk with ⟨c2, k2, h1, h2, h3⟩
      exact ⟨c2, k2, h1, h2, by rw [resolveSegsRev_skip _ _ _ _ hskip, h3]⟩
    · by_cases hdd : raw = ['.', '.']
      · subst hdd
        cases coreRev with
        | cons c tail =>
          have hcne : c ≠ ['.', '.'] := (hcore c (by simp)).2.2.2.2
          rcases ih tail k hnsrest (fun s hs => hcore s (by simp [hs])) hk with
            ⟨c2, k2, h1, h2, h3⟩
          refine ⟨c2, k2, h1, h2, ?_⟩
          rw [List.cons_append, resolveSegsRev_dd_pop _ _ _ _ hcne, h3]
        | nil =>
          cases k with
          | zero =>
            cases hallow : allow with
            | true =>
              subst hallow
              rcases ih [] 1 hnsrest (by simp) (by simp) with ⟨c2, k2, h1, h2, h3⟩
              refine ⟨c2, k2, h1, h2, ?_⟩
              simp only [List.nil_append, List.replicate]
              rw [resolveSegsRev_dd_nil, if_pos rfl]
              simpa [dd, List.replicate] using h3
            | false =>
              subst hallow
              rcases ih [] 0 hnsrest (by simp) (by simp) with ⟨c2, k2, h1, h2, h3⟩
              refine ⟨c2, k2, h1, h2, ?_⟩
              simp only [List.nil_append, List.replicate]
              rw [resolveSegsRev_dd_nil, if_neg (by simp)]
              simpa using h3
          | succ k0 =>
            have hallow : allow = true := by
              cases hal : allow with
              | true => rfl
              | false => cases hk hal
            subst hallow
            rcases ih [] (k0 + 2) hnsrest (by simp) (by simp) with ⟨c2, k2, h1, h2, h3⟩
            refine ⟨c2, k2, h1, h2, ?_⟩
            simp only [List.nil_append, List.replicate_succ, dd]
            rw [resolveSegsRev_dd_dd, if_pos rfl]
            simpa [dd, List.replicate_succ] using h3
      · push_neg at hskip
        have hraw : coreSeg raw :=
          ⟨(hns raw (by simp)).1, (hns raw (by simp)).2, hskip.1, hskip.2, hdd⟩
        rcases ih (raw :: coreRev) k hnsrest
          (by
            intro s hs
            rcases List.mem_cons.mp hs with h | h
            · subst h
              exact hraw
            · exact hcore s h) hk with ⟨c2, k2, h1, h2, h3⟩
        refine ⟨c2, k2, h1, h2, ?_⟩
        rw [resolveSegsRev_push _ _ _ _ (by push_neg; exact ⟨hskip.1, hskip.2⟩) hdd]
        rw [← List.cons_append]
        exact h3

/-- Every character of a split segment is a non-separator character of the
split string. -/
theorem splitOnSlash_chars : ∀ (s : JStr) (seg : JStr), seg ∈ splitOnSlash s →
    ∀ c ∈ seg, c ∈ s ∧ c ≠ '/' := by
  intro s
  induction s with
  | nil =>
    intro seg hseg c hc
    simp only [splitOnSlash] at hseg
    rcases List.mem_singleton.mp hseg with rfl
    cases hc
  | cons c0 rest ih =>
    intro seg hseg c hc
    rw [splitOnSlash_cons] at hseg
    by_cases h0 : c0 = '/'
    · rw [if_pos h0] at hseg
      rcases List.mem_cons.mp hseg with h | h
      · subst h
        cases hc
      · rcases ih seg h c hc with ⟨h1, h2⟩
        exact ⟨by simp [h1], h2⟩
    · rw [if_neg h0] at hseg
      cases hsplit : splitOnSlash rest with
      | nil =>
        rw [hsplit] at hseg
        rcases List.mem_singleton.mp hseg with rfl
        rcases List.mem_singleton.mp hc with rfl
        exact ⟨by simp, h0⟩
      | cons seg0 segs =>
        rw [hsplit] at hseg
        rcases List.mem_cons.mp hseg with h | h
        · subst h
          rcases List.mem_cons.mp hc with h2 | h2
          · subst h2
            exact ⟨by simp, h0⟩
          · rcases ih seg0 (by rw [hsplit]; simp) c h2 with ⟨h3, h4⟩
            exact ⟨by simp [h3], h4⟩
        · rcases ih seg (by rw [hsplit]; simp [h]) c hc with ⟨h3, h4⟩
          exact ⟨by simp [h3], h4⟩

/-- The resolved segments of any path: a run of kept parent segments
followed by ordinary segments, the run empty unless orphans are allowed. -/
theorem resolvePathSegments_canon (path : JStr) (allow : Bool) :
    ∃ (k : Nat) (core : List JStr), (∀ s ∈ core, coreSeg s) ∧ (allow = false → k = 0) ∧
      resolvePathSegments path allow = List.replicate k dd ++ core.reverse := by
  unfold resolvePathSegments
  have hns : ∀ s ∈ splitOnSlash (normalizeUnicodeAndSlashes path), '/' ∉ s ∧ '\\' ∉ s := by
    intro s hs
    constructor
    · intro hc
      have h1 := splitOnSlash_chars (normalizeUnicodeAndSlashes path) s hs '/' hc
      exact h1.2 rfl
    · intro hc
      have h1 := splitOnSlash_chars (normalizeUnicodeAndSlashes path) s hs '\\' hc
      exact normalizeUnicodeAndSlashes_no_backslash path h1.1
  rcases resolveSegsRev_canon allow (splitOnSlash (normalizeUnicodeAndSlashes path)) [] 0
    hns (by simp) (by simp) with ⟨c2, k2, h1, h2, h3⟩
  refine ⟨k2, c2, h1, h2, ?_⟩
  simp only [List.nil_append, List.replicate] at h3
  rw [h3]
  simp [List.reverse_append, List.reverse_replicate]

/-- Ordinary segments are pushed one after the other. -/
theorem resolveSegsRev_pushes (allow : Bool) :
    ∀ (core acc : List JStr), (∀ s ∈ core, coreSeg s) →
      resolveSegsRev allow acc core = core.reverse ++ acc := by
  intro core
  induction core with
  | nil =>
    intro acc _
    rw [resolveSegsRev_nil]
    rfl
  | cons s rest ih =>
    intro acc h
    have hs := h s (by simp)
    rw [resolveSegsRev_push _ _ _ _ (by push_neg; exact ⟨hs.2.2.1, hs.2.2.2.1⟩) hs.2.2.2.2]
    rw [ih (s :: acc) (fun u hu => h u (by simp [hu]))]
    simp

/-- One kept parent segment joins the parent-segment stack. -/
theorem resolveSegsRev_dd_step (j : Nat) (tail : List JStr) :
    resolveSegsRev true (List.replicate j dd) (['.', '.'] :: tail) =
      resolveSegsRev true (List.replicate (j + 1) dd) tail := by
  cases j with
  | zero =>
    show resolveSegsRev true [] (['.', '.'] :: tail) = _
    rw [resolveSegsRev_dd_nil, if_pos rfl]
    rfl
  | succ j0 =>
    show resolveSegsRev true (['.', '.'] :: List.replicate j0 dd) (['.', '.'] :: tail) = _
    rw [resolveSegsRev_dd_dd, if_pos rfl]
    rfl

/-- Kept parent segments accumulate onto a parent-segment stack. -/
theorem resolveSegsRev_dds (rest : List JStr) :
    ∀ (k j : Nat),
      resolveSegsRev true (List.replicate j dd) (List.replicate k dd ++ rest) =
        resolveSegsRev true (List.replicate (k + j) dd) rest := by
  intro k
  induction k with
  | zero =>
    intro j
    simp
  | succ k0 ih =>
    intro j
    simp only [List.replicate_succ, List.cons_append]
    rw [show (dd :: (List.replicate k0 dd ++ rest) : List JStr) =
      ['.', '.'] :: (List.replicate k0 dd ++ rest) from rfl]
    rw [resolveSegsRev_dd_step j, ih (j + 1)]
    have h : k0 + (j + 1) = k0 + 1 + j := by omega
    rw [h]

/-- Resolving the join of an already-canonical segment list is the
identity. -/
theorem resolve_join_id (k : Nat) (core : List JStr) (allow : Bool)
    (hk : k ≠ 0 → allow = true) (hcore : ∀ s ∈ core, coreSeg s) :
    resolvePathSegments (joinSlash (List.replicate k dd ++ core)) allow =
      List.replicate k dd ++ core := by
  by_cases hempty : List.replicate k dd ++ core = []
  · rw [hempty]
    show resolvePathSegments [] allow = []
    unfold resolvePathSegments
    rw [show normalizeUnicodeAndSlashes [] = [] from rfl]
    rw [show splitOnSlash [] = [[]] from rfl]
    rw [resolveSegsRev_skip _ _ _ _ (.inl rfl), resolveSegsRev_nil]
    rfl
  · have hsegs : ∀ s ∈ List.replicate k dd ++ core, coreSeg s ∨ s = ['.', '.'] := by
      intro s hs
      rcases List.mem_append.mp hs with h | h
      · exact .inr (by simpa [dd] using List.eq_of_mem_replicate h)
      · exact .inl (hcore s h)
    have hnoslash : ∀ s ∈ List.replicate k dd ++ core, '/' ∉ s := by
      intro s hs
      rcases hsegs s hs with h | h
      · exact h.1
      · subst h
        simp
    have hnobs : ∀ s ∈ List.replicate k dd ++ core, '\\' ∉ s := by
      intro s hs
      rcases hsegs s hs with h | h
      · exact h.2.1
      · subst h
        simp
    unfold resolvePathSegments
    rw [normalizeUnicodeAndSlashes_id _ (joinSlash_no_backslash _ hnobs)]
    rw [splitOnSlash_joinSlash _ hempty hnoslash]
    cases hkz : k with
    | zero =>
      simp only [List.replicate, List.nil_append]
      rw [resolveSegsRev_pushes allow core [] hcore]
      simp
    | succ k0 =>
      have hallow : allow = true := hk (by omega)
      subst hallow
      have h0 : (([] : List JStr)) = List.replicate 0 dd := rfl
      rw [h0, resolveSegsRev_dds core (k0 + 1) 0]
      rw [resolveSegsRev_pushes true core _ hcore]
      simp [List.reverse_append, List.reverse_replicate]

/-- Facts about the upper-cased drive letter: it is an ASCII letter, not
lowercase, and none of the path metacharacters. -/
theorem upperChar_spec (a : Char) (h : isAsciiLetter a = true) :
    isAsciiLetter (upperChar a) = true ∧ ¬('a' ≤ upperChar a ∧ upperChar a ≤ 'z') ∧
    upperChar a ≠ '/' ∧ upperChar a ≠ '\\' := by
  by_cases hlow : 'a' ≤ a ∧ a ≤ 'z'
  · have h97 : 97 ≤ a.toNat := hlow.1
    have h122 : a.toNat ≤ 122 := hlow.2
    have hvalid : (a.toNat - 32).isValidChar := by
      left
      omega
    have hofnat : (Char.ofNat (a.toNat - 32)).toNat = a.toNat - 32 := by
      unfold Char.ofNat
      rw [dif_pos hvalid]
      rfl
    unfold upperChar
    rw [if_pos hlow]
    refine ⟨?_, ?_, ?_, ?_⟩
    · have h1 : (65 : Nat) ≤ (Char.ofNat (a.toNat - 32)).toNat := by omega
      have h2 : (Char.ofNat (a.toNat - 32)).toNat ≤ 90 := by omega
      simp only [isAsciiLetter]
      exact decide_eq_true (.inl ⟨h1, h2⟩)
    · intro hcon
      have h1 : (97 : Nat) ≤ (Char.ofNat (a.toNat - 32)).toNat := hcon.1
      omega
    · intro hcon
      have h1 := congrArg Char.toNat hcon
      rw [hofnat] at h1
      have : ('/' : Char).toNat = 47 := rfl
      omega
    · intro hcon
      have h1 := congrArg Char.toNat hcon
      rw [hofnat] at h1
      have : ('\\' : Char).toNat = 92 := rfl
      omega
  · have hbounds : 65 ≤ a.toNat ∧ a.toNat ≤ 90 := by
      have h2 := of_decide_eq_true h
      rcases h2 with h3 | h3
      · exact ⟨h3.1, h3.2⟩
      · exact absurd h3 hlow
    unfold upperChar
    rw [if_neg hlow]
    refine ⟨h, hlow, ?_, ?_⟩
    · intro hcon
      have h1 := congrArg Char.toNat hcon
      have : ('/' : Char).toNat = 47 := rfl
      omega
    · intro hcon
      have h1 := congrArg Char.toNat hcon
      have : ('\\' : Char).toNat = 92 := rfl
      omega

/-- A letter that is not lowercase upper-cases to itself. -/
theorem upperChar_id (a : Char) (h : ¬('a' ≤ a ∧ a ≤ 'z')) : upperChar a = a := by
  unfold upperChar
  rw [if_neg h]

/-- Slash phase on a UNC-shaped head. -/
theorem slashPhase_unc (c : Char) (t : JStr) (h : c ≠ '/') :
    slashPhase ('/' :: '/' :: c :: t) = (true, false, c :: t) := by
  show (if c ≠ '/' then (true, false, c :: t)
    else (false, true, dropLeadingSlashes ('/' :: '/' :: c :: t))) = _
  rw [if_pos h]

/-- Slash phase on a single leading slash. -/
theorem slashPhase_single (c : Char) (t : JStr) (h : c ≠ '/') :
    slashPhase ('/' :: c :: t) = (false, true, c :: t) := by
  have hdrop : dropLeadingSlashes ('/' :: c :: t) = c :: t := by
    show (if c = '/' then dropLeadingSlashes t else c :: t) = c :: t
    rw [if_neg h]
  unfold slashPhase
  split
  · rename_i c2 rest heq
    rw [List.cons.injEq, List.cons.injEq] at heq
    exact absurd heq.2.1 h
  · rw [hdrop]
  · rename_i hne1 hne2
    exact absurd (hne2 (c :: t) rfl) not_false

/-- Slash phase on the bare root. -/
theorem slashPhase_root : slashPhase ['/'] = (false, true, []) := by
  unfold slashPhase
  rfl

/-- Slash phase on a slash-free head. -/
theorem slashPhase_plain (c : Char) (t : JStr) (h : c ≠ '/') :
    slashPhase (c :: t) = (false, false, c :: t) := by
  unfold slashPhase
  split
  · rename_i c2 rest heq
    rw [List.cons.injEq] at heq
    exact absurd heq.1 h
  · rename_i rest heq
    rw [List.cons.injEq] at heq
    exact absurd heq.1 h
  · rfl

/-- Drive phase inside a UNC prefix is skipped. -/
theorem drivePhase_unc (w : JStr) : drivePhase true w = ([], false, w) := by
  unfold drivePhase
  rfl

/-- Drive phase on a string that does not look like a drive. -/
theorem drivePhase_nodrive (w : JStr) (h : driveLike w = false) :
    drivePhase false w = ([], false, w) := by
  unfold drivePhase
  cases w with
  | nil => rfl
  | cons a rest =>
    cases rest with
    | nil => rfl
    | cons b t =>
      show (if isAsciiLetter a ∧ b = ':' then _ else _) = _
      rw [if_neg (by
        intro hcon
        rw [driveLike] at h
        rw [hcon.2] at h
        simp [hcon.1] at h)]

/-- Drive phase on a bare drive. -/
theorem drivePhase_bare (a : Char) (h : isAsciiLetter a = true) :
    drivePhase false [a, ':'] = ([upperChar a, ':'], false, []) := by
  show (if isAsciiLetter a ∧ ':' = ':' then _ else _) = _
  rw [if_pos ⟨h, rfl⟩]

/-- Drive phase on an absolute drive path. -/
theorem drivePhase_abs (a : Char) (t : JStr) (h : isAsciiLetter a = true) :
    drivePhase false (a :: ':' :: '/' :: t) =
      ([upperChar a, ':'], true, dropLeadingSlashes t) := by
  show (if isAsciiLetter a ∧ ':' = ':' then _ else _) = _
  rw [if_pos ⟨h, rfl⟩]
  show ([upperChar a, ':'], true, dropLeadingSlashes ('/' :: t)) = _
  rw [show dropLeadingSlashes ('/' :: t) = dropLeadingSlashes t from by
    rw [dropLeadingSlashes.eq_def]
    dsimp only
    rw [if_pos rfl]]

/-- Drive phase on a relative drive path. -/
theorem drivePhase_rel (a c : Char) (t : JStr) (h : isAsciiLetter a = true)
    (hc : c ≠ '/') :
    drivePhase false (a :: ':' :: c :: t) = ([upperChar a, ':'], false, c :: t) := by
  show (if isAsciiLetter a ∧ ':' = ':' then
      (match c :: t with
       | '/' :: _ => ([upperChar a, ':'], true, dropLeadingSlashes (c :: t))
       | _ => ([upperChar a, ':'], false, c :: t))
    else ([], false, a :: ':' :: c :: t)) = _
  rw [if_pos ⟨h, rfl⟩]
  split
  · rename_i heq
    rw [List.cons.injEq] at heq
    exact absurd heq.1 hc
  · rfl

/-- Embedding of `stripExtendedLengthPrefix` is the identity on clean
strings without the extended-length prefix. -/
theorem stripExtendedLengthPfx_id (q : JStr) (hbs : '\\' ∉ q)
    (hpfx : (['/', '/', '?', '/'].isPrefixOf q) = false) :
    stripExtendedLengthPfx q = q := by
  unfold stripExtendedLengthPfx
  rw [normalizeUnicodeAndSlashes_id q hbs]
  rw [if_neg (by simp [hpfx])]

/-- Join of one segment and the rest. -/
theorem joinSlash_cons_general (s : JStr) (rest : List JStr) :
    joinSlash (s :: rest) =
      s ++ (if rest = [] then [] else '/' :: joinSlash rest) := by
  cases rest with
  | nil => simp [joinSlash]
  | cons t ts =>
    rw [joinSlash_cons₂, if_neg (by simp)]

/-- Elements of a canonical segment list are nonempty and separator-free. -/
theorem canonSegs_facts (k : Nat) (core : List JStr)
    (h : ∀ s ∈ core, coreSeg s) :
    ∀ s ∈ List.replicate k dd ++ core, s ≠ [] ∧ '/' ∉ s ∧ '\\' ∉ s := by
  intro s hs
  rcases List.mem_append.mp hs with h2 | h2
  · have := List.eq_of_mem_replicate h2
    subst this
    refine ⟨by simp [dd], by simp [dd], by simp [dd]⟩
  · exact ⟨(h s h2).2.2.1, (h s h2).1, (h s h2).2.1⟩

/-- Unfolded form of `normalizePath` on a nonempty input. -/
theorem normalizePath_eq (p : JStr) (hne : p ≠ []) :
    normalizePath p =
      rebuildNormalizedPath (analyzePathPrefixInfo (stripExtendedLengthPfx p))
        (resolvePathSegments
          (analyzePathPrefixInfo (stripExtendedLengthPfx p)).remainder
          (!((analyzePathPrefixInfo (stripExtendedLengthPfx p)).isUnc ||
             (analyzePathPrefixInfo (stripExtendedLengthPfx p)).hasLeadingSlash ||
             (analyzePathPrefixInfo (stripExtendedLengthPfx p)).driveIsAbsolute))) := by
  unfold normalizePath
  rw [if_neg hne]

/-- The extended-length prefix never matches a string whose first
character is not a slash. -/
theorem isPrefixOf_unc_plain (c : Char) (t : JStr) (h : c ≠ '/') :
    (['/', '/', '?', '/'].isPrefixOf (c :: t)) = false := by
  rw [Bool.eq_false_iff]
  intro hcon
  rw [List.isPrefixOf_iff_prefix] at hcon
  obtain ⟨r, hr⟩ := hcon
  simp only [List.cons_append, List.cons.injEq] at hr
  exact h hr.1.symm

/-- The extended-length prefix never matches a string whose second
character is not a slash. -/
theorem isPrefixOf_unc_slash (c : Char) (t : JStr) (h : c ≠ '/') :
    (['/', '/', '?', '/'].isPrefixOf ('/' :: c :: t)) = false := by
  rw [Bool.eq_false_iff]
  intro hcon
  rw [List.isPrefixOf_iff_prefix] at hcon
  obtain ⟨r, hr⟩ := hcon
  simp only [List.cons_append, List.cons.injEq] at hr
  exact h hr.2.1.symm

/-- An ASCII letter is none of the path metacharacters. -/
theorem isAsciiLetter_ne (c : Char) (h : isAsciiLetter c = true) :
    c ≠ '/' ∧ c ≠ '\\' ∧ c ≠ ':' ∧ c ≠ '.' := by
  have h2 := of_decide_eq_true h
  have hb : (65 ≤ c.toNat ∧ c.toNat ≤ 90) ∨ (97 ≤ c.toNat ∧ c.toNat ≤ 122) := by
    rcases h2 with h3 | h3
    · exact .inl ⟨h3.1, h3.2⟩
    · exact .inr ⟨h3.1, h3.2⟩
  refine ⟨?_, ?_, ?_, ?_⟩ <;> intro hcon
  · have h1 := congrArg Char.toNat hcon
    have : ('/' : Char).toNat = 47 := rfl
    omega
  · have h1 := congrArg Char.toNat hcon
    have : ('\\' : Char).toNat = 92 := rfl
    omega
  · have h1 := congrArg Char.toNat hcon
    have : (':' : Char).toNat = 58 := rfl
    omega
  · have h1 := congrArg Char.toNat hcon
    have : ('.' : Char).toNat = 46 := rfl
    omega

/-- The drive produced by the drive phase is empty or an upper-cased
ASCII letter followed by a colon. -/
theorem drivePhase_shape (u : Bool) (w : JStr) :
    (drivePhase u w).1 = [] ∨
      ∃ a, isAsciiLetter a = true ∧ (drivePhase u w).1 = [upperChar a, ':'] := by
  cases u with
  | true =>
    rw [drivePhase_unc]
    exact .inl rfl
  | false =>
    cases w with
    | nil =>
      exact .inl rfl
    | cons a rest =>
      cases rest with
      | nil =>
        exact .inl rfl
      | cons b t =>
        by_cases hd : isAsciiLetter a = true ∧ b = ':'
        · obtain ⟨hda, rfl⟩ := hd
          · cases t with
            | nil =>
              rw [drivePhase_bare a hda]
              exact .inr ⟨a, hda, rfl⟩
            | cons c t2 =>
              by_cases hc : c = '/'
              · subst hc
                rw [drivePhase_abs a t2 hda]
                exact .inr ⟨a, hda, rfl⟩
              · rw [drivePhase_rel a c t2 hda hc]
                exact .inr ⟨a, hda, rfl⟩
        · rw [drivePhase_nodrive _ (by
            rw [driveLike]
            rw [Bool.eq_false_iff]
            intro hcon
            rw [Bool.and_eq_true] at hcon
            exact hd ⟨hcon.1, of_decide_eq_true hcon.2⟩)]
          exact .inl rfl

/-- The drive of the analyzed prefix is empty or an upper-cased ASCII
letter followed by a colon. -/
theorem pre_drive_shape (path : JStr) :
    (analyzePathPrefixInfo path).drive = [] ∨
      ∃ a, isAsciiLetter a = true ∧
        (analyzePathPrefixInfo path).drive = [upperChar a, ':'] :=
  drivePhase_shape (slashPhase path).1 (slashPhase path).2.2

/-- A rebuilt UNC path with at least one canonical segment re-normalizes
to itself. -/
theorem normalizePath_fix_unc (segs : List JStr) (hne : segs ≠ [])
    (hgood : ∀ s ∈ segs, coreSeg s)
    (hpfx : (['/', '/', '?', '/'].isPrefixOf
      ('/' :: '/' :: joinSlash segs)) = false) :
    normalizePath ('/' :: '/' :: joinSlash segs) =
      '/' :: '/' :: joinSlash segs := by
  obtain ⟨s₀, rest, rfl⟩ : ∃ s₀ rest, segs = s₀ :: rest := by
    cases segs with
    | nil => exact absurd rfl hne
    | cons s₀ rest => exact ⟨s₀, rest, rfl⟩
  have hs₀ := hgood s₀ (by simp)
  obtain ⟨c₀, s₀t, rfl⟩ : ∃ c t, s₀ = c :: t := by
    cases s₀ with
    | nil => exact absurd rfl hs₀.2.2.1
    | cons c t => exact ⟨c, t, rfl⟩
  have hc₀ : c₀ ≠ '/' := by
    intro hcon
    exact hs₀.1 (by simp [hcon])
  have hjshape : joinSlash ((c₀ :: s₀t) :: rest) =
      c₀ :: (s₀t ++ (if rest = [] then [] else '/' :: joinSlash rest)) := by
    rw [joinSlash_cons_general]
    rfl
  have hbs : '\\' ∉ ('/' :: '/' :: joinSlash ((c₀ :: s₀t) :: rest)) := by
    intro hcon
    rcases List.mem_cons.mp hcon with h1 | h1
    · cases h1
    rcases List.mem_cons.mp h1 with h2 | h2
    · cases h2
    exact joinSlash_no_backslash _ (fun s hs => (hgood s hs).2.1) h2
  have hana : analyzePathPrefixInfo ('/' :: '/' :: joinSlash ((c₀ :: s₀t) :: rest)) =
      ⟨true, false, [], false, joinSlash ((c₀ :: s₀t) :: rest)⟩ := by
    rw [hjshape]
    unfold analyzePathPrefixInfo
    rw [slashPhase_unc c₀ _ hc₀]
    dsimp only
    rw [drivePhase_unc]
  rw [normalizePath_eq _ (by simp)]
  rw [stripExtendedLengthPfx_id _ hbs hpfx]
  rw [hana]
  show rebuildNormalizedPath ⟨true, false, [], false, joinSlash ((c₀ :: s₀t) :: rest)⟩
    (resolvePathSegments (joinSlash ((c₀ :: s₀t) :: rest)) false) = _
  rw [show resolvePathSegments (joinSlash ((c₀ :: s₀t) :: rest)) false =
      (c₀ :: s₀t) :: rest from by
    have h1 := resolve_join_id 0 ((c₀ :: s₀t) :: rest) false
      (fun hcon => absurd rfl hcon) hgood
    simpa using h1]
  unfold rebuildNormalizedPath
  rw [if_pos rfl]

/-- A rebuilt absolute path without drive or UNC prefix re-normalizes to
itself when its body is not drive-like. -/
theorem normalizePath_fix_slash (segs : List JStr)
    (hgood : ∀ s ∈ segs, coreSeg s)
    (hnodrive : driveLike (joinSlash segs) = false) :
    normalizePath ('/' :: joinSlash segs) = '/' :: joinSlash segs := by
  cases segs with
  | nil => decide
  | cons s₀ rest =>
    have hs₀ := hgood s₀ (by simp)
    obtain ⟨c₀, s₀t, rfl⟩ : ∃ c t, s₀ = c :: t := by
      cases s₀ with
      | nil => exact absurd rfl hs₀.2.2.1
      | cons c t => exact ⟨c, t, rfl⟩
    have hc₀ : c₀ ≠ '/' := by
      intro hcon
      exact hs₀.1 (by simp [hcon])
    have hjshape : joinSlash ((c₀ :: s₀t) :: rest) =
        c₀ :: (s₀t ++ (if rest = [] then [] else '/' :: joinSlash rest)) := by
      rw [joinSlash_cons_general]
      rfl
    have hbs : '\\' ∉ ('/' :: joinSlash ((c₀ :: s₀t) :: rest)) := by
      intro hcon
      rcases List.mem_cons.mp hcon with h1 | h1
      · cases h1
      exact joinSlash_no_backslash _ (fun s hs => (hgood s hs).2.1) h1
    have hpfx : (['/', '/', '?', '/'].isPrefixOf
        ('/' :: joinSlash ((c₀ :: s₀t) :: rest))) = false := by
      rw [hjshape]
      exact isPrefixOf_unc_slash c₀ _ hc₀
    have hana : analyzePathPrefixInfo ('/' :: joinSlash ((c₀ :: s₀t) :: rest)) =
        ⟨false, true, [], false, joinSlash ((c₀ :: s₀t) :: rest)⟩ := by
      rw [hjshape]
      unfold analyzePathPrefixInfo
      rw [slashPhase_single c₀ _ hc₀]
      dsimp only
      rw [drivePhase_nodrive _ (by rw [← hjshape]; exact hnodrive)]
    rw [normalizePath_eq _ (by simp)]
    rw [stripExtendedLengthPfx_id _ hbs hpfx]
    rw [hana]
    show rebuildNormalizedPath ⟨false, true, [], false, joinSlash ((c₀ :: s₀t) :: rest)⟩
      (resolvePathSegments (joinSlash ((c₀ :: s₀t) :: rest)) false) = _
    rw [show resolvePathSegments (joinSlash ((c₀ :: s₀t) :: rest)) false =
        (c₀ :: s₀t) :: rest from by
      have h1 := resolve_join_id 0 ((c₀ :: s₀t) :: rest) false
        (fun hcon => absurd rfl hcon) hgood
      simpa using h1]
    unfold rebuildNormalizedPath
    rw [if_neg (by simp), if_neg (by simp), if_pos rfl]

/-- The head character of the join of canonical segments is never a
slash. -/
theorem joinSlash_head_ne_slash (segs : List JStr)
    (hgood : ∀ s ∈ segs, s ≠ [] ∧ '/' ∉ s) :
    ∀ c t, joinSlash segs = c :: t → c ≠ '/' := by
  intro c t hj hcon
  subst hcon
  cases segs with
  | nil => exact List.noConfusion hj
  | cons s₀ rest =>
    have hs₀ := hgood s₀ (by simp)
    obtain ⟨c₀, s₀t, rfl⟩ : ∃ cc tt, s₀ = cc :: tt := by
      cases s₀ with
      | nil => exact absurd rfl hs₀.1
      | cons cc tt => exact ⟨cc, tt, rfl⟩
    rw [joinSlash_cons_general, List.cons_append, List.cons.injEq] at hj
    exact hs₀.2 (by simp [hj.1])

/-- A rebuilt drive-absolute path re-normalizes to itself. -/
theorem normalizePath_fix_driveabs (D : Char) (segs : List JStr)
    (hD : isAsciiLetter D = true) (hDup : ¬('a' ≤ D ∧ D ≤ 'z'))
    (hgood : ∀ s ∈ segs, coreSeg s) :
    normalizePath (D :: ':' :: '/' :: joinSlash segs) =
      D :: ':' :: '/' :: joinSlash segs := by
  have hDne := isAsciiLetter_ne D hD
  have hbs : '\\' ∉ (D :: ':' :: '/' :: joinSlash segs) := by
    intro hcon
    rcases List.mem_cons.mp hcon with h1 | h1
    · exact hDne.2.1 h1.symm
    rcases List.mem_cons.mp h1 with h2 | h2
    · cases h2
    rcases List.mem_cons.mp h2 with h3 | h3
    · cases h3
    exact joinSlash_no_backslash _ (fun s hs => (hgood s hs).2.1) h3
  have hpfx := isPrefixOf_unc_plain D (':' :: '/' :: joinSlash segs) hDne.1
  have hdrop : dropLeadingSlashes (joinSlash segs) = joinSlash segs :=
    dropLeadingSlashes_id _
      (joinSlash_head_ne_slash segs (fun s hs => ⟨(hgood s hs).2.2.1, (hgood s hs).1⟩))
  have hana : analyzePathPrefixInfo (D :: ':' :: '/' :: joinSlash segs) =
      ⟨false, false, [D, ':'], true, joinSlash segs⟩ := by
    unfold analyzePathPrefixInfo
    rw [slashPhase_plain D _ hDne.1]
    dsimp only
    rw [drivePhase_abs D _ hD]
    rw [upperChar_id D hDup, hdrop]
  rw [normalizePath_eq _ (by simp)]
  rw [stripExtendedLengthPfx_id _ hbs hpfx]
  rw [hana]
  show rebuildNormalizedPath ⟨false, false, [D, ':'], true, joinSlash segs⟩
    (resolvePathSegments (joinSlash segs) false) = _
  rw [show resolvePathSegments (joinSlash segs) false = segs from by
    have h1 := resolve_join_id 0 segs false (fun hcon => absurd rfl hcon) hgood
    simpa using h1]
  unfold rebuildNormalizedPath
  rw [if_neg (by simp), if_pos (by simp), if_pos rfl]
  rfl

/-- A rebuilt drive-relative path re-normalizes to itself. -/
theorem normalizePath_fix_driverel (D : Char) (k : Nat) (rcore : List JStr)
    (hD : isAsciiLetter D = true) (hDup : ¬('a' ≤ D ∧ D ≤ 'z'))
    (hgood : ∀ s ∈ rcore, coreSeg s) :
    normalizePath (D :: ':' :: joinSlash (List.replicate k dd ++ rcore)) =
      D :: ':' :: joinSlash (List.replicate k dd ++ rcore) := by
  have hDne := isAsciiLetter_ne D hD
  have hfacts := canonSegs_facts k rcore hgood
  have hbs : '\\' ∉ (D :: ':' :: joinSlash (List.replicate k dd ++ rcore)) := by
    intro hcon
    rcases List.mem_cons.mp hcon with h1 | h1
    · exact hDne.2.1 h1.symm
    rcases List.mem_cons.mp h1 with h2 | h2
    · cases h2
    exact joinSlash_no_backslash _ (fun s hs => (hfacts s hs).2.2) h2
  have hpfx := isPrefixOf_unc_plain D (':' :: joinSlash (List.replicate k dd ++ rcore))
    hDne.1
  have hres : resolvePathSegments (joinSlash (List.replicate k dd ++ rcore)) true =
      List.replicate k dd ++ rcore :=
    resolve_join_id k rcore true (fun _ => rfl) hgood
  cases hE : List.replicate k dd ++ rcore with
  | nil =>
    show normalizePath [D, ':'] = [D, ':']
    have hana : analyzePathPrefixInfo [D, ':'] = ⟨false, false, [D, ':'], false, []⟩ := by
      unfold analyzePathPrefixInfo
      rw [slashPhase_plain D _ hDne.1]
      dsimp only
      rw [drivePhase_bare D hD]
      rw [upperChar_id D hDup]
    rw [normalizePath_eq _ (by simp)]
    rw [stripExtendedLengthPfx_id _ (by rw [hE] at hbs; exact hbs)
      (isPrefixOf_unc_plain D [':'] hDne.1)]
    rw [hana]
    show rebuildNormalizedPath ⟨false, false, [D, ':'], false, []⟩
      (resolvePathSegments [] true) = _
    rw [show resolvePathSegments [] true = [] from rfl]
    unfold rebuildNormalizedPath
    rw [if_neg (by simp), if_pos (by simp), if_neg (by simp), if_pos rfl]
  | cons s₀ rest =>
    have hs₀ : s₀ ≠ [] ∧ '/' ∉ s₀ ∧ '\\' ∉ s₀ := by
      have := hfacts s₀ (by rw [hE]; simp)
      exact this
    obtain ⟨c₀, s₀t, hs₀E⟩ : ∃ cc tt, s₀ = cc :: tt := by
      cases s₀ with
      | nil => exact absurd rfl hs₀.1
      | cons cc tt => exact ⟨cc, tt, rfl⟩
    have hc₀ : c₀ ≠ '/' := by
      intro hcon
      exact hs₀.2.1 (by simp [hs₀E, hcon])
    have hjshape : joinSlash (s₀ :: rest) =
        c₀ :: (s₀t ++ (if rest = [] then [] else '/' :: joinSlash rest)) := by
      rw [joinSlash_cons_general, hs₀E]
      rfl
    have hana : analyzePathPrefixInfo (D :: ':' :: joinSlash (s₀ :: rest)) =
        ⟨false, false, [D, ':'], false, joinSlash (s₀ :: rest)⟩ := by
      rw [hjshape]
      unfold analyzePathPrefixInfo
      rw [slashPhase_plain D _ hDne.1]
      dsimp only
      rw [drivePhase_rel D c₀ _ hD hc₀]
      rw [upperChar_id D hDup]
    rw [normalizePath_eq _ (by simp)]
    rw [stripExtendedLengthPfx_id _ (by rw [hE] at hbs; exact hbs)
      (by rw [hE] at hpfx; exact hpfx)]
    rw [hana]
    show rebuildNormalizedPath ⟨false, false, [D, ':'], false, joinSlash (s₀ :: rest)⟩
      (resolvePathSegments (joinSlash (s₀ :: rest)) true) = _
    rw [show resolvePathSegments (joinSlash (s₀ :: rest)) true = s₀ :: rest from by
      rw [hE] at hres
      exact hres]
    unfold rebuildNormalizedPath
    rw [if_neg (by simp), if_pos (by simp), if_neg (by simp), if_neg (by simp)]
    rfl

/-- Equation lemma: a single character is not drive-like. -/
theorem driveLike_one (a : Char) : driveLike [a] = false := rfl

/-- Equation lemma for the drive-like test on two or more characters. -/
theorem driveLike_cons₂ (a b : Char) (t : JStr) :
    driveLike (a :: b :: t) = (isAsciiLetter a && b = ':') := rfl

/-- Equation lemma for the lowercase-start test. -/
theorem lowerStart_cons (a : Char) (t : JStr) :
    lowerStart (a :: t) = ('a' ≤ a && a ≤ 'z') := rfl

/-- Taking while not-slash over a slash-free string keeps it all. -/
theorem takeWhile_ne_slash_all : ∀ s : JStr, '/' ∉ s →
    s.takeWhile (fun c => c ≠ '/') = s := by
  intro s
  induction s with
  | nil =>
    intro _
    rfl
  | cons c t ih =>
    intro h
    rw [List.takeWhile_cons]
    rw [if_pos (by
      refine decide_eq_true ?_
      intro hcon
      exact h (by simp [hcon]))]
    rw [ih (fun hcon => h (by simp [hcon]))]

/-- Taking while not-slash stops at the first slash after a slash-free
block. -/
theorem takeWhile_ne_slash_append : ∀ s : JStr, ∀ t : JStr, '/' ∉ s →
    (s ++ '/' :: t).takeWhile (fun c => c ≠ '/') = s := by
  intro s
  induction s with
  | nil =>
    intro t _
    rw [List.nil_append, List.takeWhile_cons]
    rw [if_neg (by simp)]
  | cons c s' ih =>
    intro t h
    rw [List.cons_append, List.takeWhile_cons]
    rw [if_pos (by
      refine decide_eq_true ?_
      intro hcon
      exact h (by simp [hcon]))]
    rw [ih t (fun hcon => h (by simp [hcon]))]

/-- A rebuilt fully relative path re-normalizes to itself when the
drive-look guard clauses hold for it. -/
theorem normalizePath_fix_plain (k : Nat) (rcore : List JStr)
    (hgood : ∀ s ∈ rcore, coreSeg s)
    (hne : List.replicate k dd ++ rcore ≠ [])
    (hguard : (driveLike (joinSlash (List.replicate k dd ++ rcore)) &&
      (lowerStart (joinSlash (List.replicate k dd ++ rcore)) ||
       decide (((joinSlash (List.replicate k dd ++ rcore)).drop 2).takeWhile
         (fun c => c ≠ '/') = ['.']))) = false) :
    normalizePath (joinSlash (List.replicate k dd ++ rcore)) =
      joinSlash (List.replicate k dd ++ rcore) := by
  have hfacts := canonSegs_facts k rcore hgood
  have hres : resolvePathSegments (joinSlash (List.replicate k dd ++ rcore)) true =
      List.replicate k dd ++ rcore :=
    resolve_join_id k rcore true (fun _ => rfl) hgood
  cases hE : List.replicate k dd ++ rcore with
  | nil => exact absurd hE hne
  | cons s₀ rest =>
    rw [hE] at hfacts hres hguard
    have hs₀ := hfacts s₀ (by simp)
    obtain ⟨c₀, s₀t, hs₀E⟩ : ∃ cc tt, s₀ = cc :: tt := by
      cases s₀ with
      | nil => exact absurd rfl hs₀.1
      | cons cc tt => exact ⟨cc, tt, rfl⟩
    have hc₀ : c₀ ≠ '/' := fun hcon => hs₀.2.1 (by simp [hs₀E, hcon])
    have hjshape : joinSlash (s₀ :: rest) =
        c₀ :: (s₀t ++ (if rest = [] then [] else '/' :: joinSlash rest)) := by
      rw [joinSlash_cons_general, hs₀E]
      rfl
    have hbs : '\\' ∉ joinSlash (s₀ :: rest) :=
      joinSlash_no_backslash _ (fun s hs => (hfacts s hs).2.2)
    have hpfx : (['/', '/', '?', '/'].isPrefixOf (joinSlash (s₀ :: rest))) = false := by
      rw [hjshape]
      exact isPrefixOf_unc_plain c₀ _ hc₀
    cases hdl : driveLike (joinSlash (s₀ :: rest)) with
    | false =>
      have hana : analyzePathPrefixInfo (joinSlash (s₀ :: rest)) =
          ⟨false, false, [], false, joinSlash (s₀ :: rest)⟩ := by
        rw [hjshape]
        unfold analyzePathPrefixInfo
        rw [slashPhase_plain c₀ _ hc₀]
        dsimp only
        rw [drivePhase_nodrive _ (by rw [← hjshape]; exact hdl)]
      rw [normalizePath_eq _ (by rw [hjshape]; simp)]
      rw [stripExtendedLengthPfx_id _ hbs hpfx, hana]
      show rebuildNormalizedPath ⟨false, false, [], false, joinSlash (s₀ :: rest)⟩
        (resolvePathSegments (joinSlash (s₀ :: rest)) true) = _
      rw [hres]
      unfold rebuildNormalizedPath
      rw [if_neg (by simp), if_neg (by simp), if_neg (by simp), if_neg (by simp)]
    | true =>
      rw [hdl, Bool.true_and, Bool.or_eq_false_iff] at hguard
      obtain ⟨hlow, hdot0⟩ := hguard
      have hdot := of_decide_eq_false hdot0
      cases hs₀t : s₀t with
      | nil =>
        exfalso
        rw [hs₀t] at hjshape
        rw [hjshape] at hdl
        cases hrest : rest with
        | nil =>
          rw [hrest] at hdl
          rw [if_pos rfl] at hdl
          rw [show (c₀ :: ([] ++ [] : JStr)) = [c₀] from rfl] at hdl
          rw [driveLike_one] at hdl
          exact absurd hdl (by simp)
        | cons r₀ rest' =>
          rw [hrest] at hdl
          rw [if_neg (by simp)] at hdl
          rw [show (c₀ :: (([] : JStr) ++ '/' :: joinSlash (r₀ :: rest'))) =
            c₀ :: '/' :: joinSlash (r₀ :: rest') from rfl] at hdl
          rw [driveLike_cons₂, Bool.and_eq_true] at hdl
          exact absurd (of_decide_eq_true hdl.2) (by decide)
      | cons c₁ s₀tt =>
        have hq2 : joinSlash (s₀ :: rest) =
            c₀ :: c₁ :: (s₀tt ++ (if rest = [] then [] else '/' :: joinSlash rest)) := by
          rw [hjshape, hs₀t]
          rfl
        rw [hq2] at hdl
        rw [driveLike_cons₂, Bool.and_eq_true] at hdl
        have ha : isAsciiLetter c₀ = true := hdl.1
        have hc₁ : c₁ = ':' := of_decide_eq_true hdl.2
        subst hc₁
        have hstt_noslash : '/' ∉ s₀tt := by
          intro hcon
          exact hs₀.2.1 (by simp [hs₀E, hs₀t, hcon])
        cases k with
        | succ k' =>
          exfalso
          rw [List.replicate_succ, List.cons_append, List.cons.injEq] at hE
          have h1 : dd = s₀ := hE.1
          rw [hs₀E, hs₀t] at h1
          rw [show dd = ['.', '.'] from rfl, List.cons.injEq, List.cons.injEq] at h1
          exact absurd h1.2.1 (by decide)
        | zero =>
          rw [show (List.replicate 0 dd : List JStr) = [] from rfl,
            List.nil_append] at hE
          have hgood2 : ∀ s ∈ s₀ :: rest, coreSeg s := by
            intro s hs
            exact hgood s (by rw [hE]; exact hs)
          have hrest : ∀ s ∈ rest, coreSeg s := fun s hs => hgood2 s (by simp [hs])
          have hDup : ¬('a' ≤ c₀ ∧ c₀ ≤ 'z') := by
            intro hcon
            rw [hq2, lowerStart_cons, decide_eq_true hcon.1,
              decide_eq_true hcon.2] at hlow
            exact absurd hlow (by simp)
          have hdot2 : s₀tt ≠ ['.'] := by
            intro hcon
            apply hdot
            rw [hq2]
            show ((s₀tt ++ if rest = [] then [] else '/' :: joinSlash rest)).takeWhile
              (fun c => c ≠ '/') = ['.']
            cases hrest2 : rest with
            | nil =>
              rw [if_pos rfl, List.append_nil]
              rw [takeWhile_ne_slash_all s₀tt hstt_noslash]
              exact hcon
            | cons r₀ rest' =>
              rw [if_neg (by simp)]
              rw [takeWhile_ne_slash_append s₀tt _ hstt_noslash]
              exact hcon
          cases hstt : s₀tt with
          | nil =>
            cases hrest2 : rest with
            | nil =>
              rw [show joinSlash [s₀] = [c₀, ':'] from by
                rw [show joinSlash [s₀] = s₀ from rfl, hs₀E, hs₀t, hstt]]
              rw [show ([c₀, ':'] : JStr) =
                c₀ :: ':' :: joinSlash (List.replicate 0 dd ++ []) from rfl]
              exact normalizePath_fix_driverel c₀ 0 [] ha hDup (by intro s hs; cases hs)
            | cons r₀ rest' =>
              rw [hrest2] at hq2
              rw [show joinSlash (s₀ :: r₀ :: rest') =
                  c₀ :: ':' :: '/' :: joinSlash (r₀ :: rest') from by
                rw [hq2, hstt]
                rw [if_neg (by simp)]
                rfl]
              exact normalizePath_fix_driveabs c₀ (r₀ :: rest') ha hDup
                (by rw [← hrest2]; exact hrest)
          | cons c₂ s₀t3 =>
            have hq3 : joinSlash (s₀ :: rest) = c₀ :: ':' :: joinSlash (s₀tt :: rest) := by
              rw [hq2, joinSlash_cons_general]
            by_cases hdd : s₀tt = dd
            · rw [hq3]
              rw [show (s₀tt :: rest : List JStr) = List.replicate 1 dd ++ rest from by
                rw [hdd]
                rfl]
              exact normalizePath_fix_driverel c₀ 1 rest ha hDup hrest
            · have hcs : coreSeg s₀tt := by
                refine ⟨hstt_noslash, ?_, by rw [hstt]; simp, hdot2, hdd⟩
                intro hcon
                exact hs₀.2.2 (by simp [hs₀E, hs₀t, hcon])
              rw [hq3]
              rw [show (s₀tt :: rest : List JStr) =
                List.replicate 0 dd ++ (s₀tt :: rest) from rfl]
              exact normalizePath_fix_driverel c₀ 0 (s₀tt :: rest) ha hDup (by
                intro s hs
                rcases List.mem_cons.mp hs with h2 | h2
                · rw [h2]
                  exact hcs
                · exact hrest s h2)

/-- An empty drive from the drive phase comes with a false absolute
flag. -/
theorem drivePhase_empty_abs (u : Bool) (w : JStr)
    (h : (drivePhase u w).1 = []) : (drivePhase u w).2.1 = false := by
  cases u with
  | true => rw [drivePhase_unc]
  | false =>
    cases w with
    | nil => rfl
    | cons a rest =>
      cases rest with
      | nil => rfl
      | cons b t =>
        by_cases hd : isAsciiLetter a = true ∧ b = ':'
        · obtain ⟨hda, rfl⟩ := hd
          cases t with
          | nil =>
            rw [drivePhase_bare a hda] at h
            exact absurd h (by simp)
          | cons c t2 =>
            by_cases hc : c = '/'
            · subst hc
              rw [drivePhase_abs a t2 hda] at h
              exact absurd h (by simp)
            · rw [drivePhase_rel a c t2 hda hc] at h
              exact absurd h (by simp)
        · rw [drivePhase_nodrive _ (by
            rw [driveLike]
            rw [Bool.eq_false_iff]
            intro hcon
            rw [Bool.and_eq_true] at hcon
            exact hd ⟨hcon.1, of_decide_eq_true hcon.2⟩)]

/-- A prefix analysis without a drive never marks the drive absolute. -/
theorem pre_empty_abs (path : JStr) (h : (analyzePathPrefixInfo path).drive = []) :
    (analyzePathPrefixInfo path).driveIsAbsolute = false :=
  drivePhase_empty_abs _ _ h

/-- Counterexample to claim C10 as stated: normalizing `//a/..` yields
`//`, and normalizing that again yields `/`, so `normalizePath` is not
idempotent. -/
theorem normalizePath_not_idempotent :
    normalizePath (normalizePath ['/', '/', 'a', '/', '.', '.']) ≠
      normalizePath ['/', '/', 'a', '/', '.', '.'] := by
  decide

/-- **C10 (amended).** Path normalization is idempotent on every input
whose normal form does not re-parse under a different prefix
classification: if `reparsesDifferently (normalizePath p) = false` then
`normalizePath (normalizePath p) = normalizePath p`; in particular the
empty string normalizes to `.` and normalizing `.` again yields `.`.
The unguarded claim is refuted by `normalizePath_not_idempotent`. -/
theorem normalizePath_idempotent_amended (p : JStr)
    (h : reparsesDifferently (normalizePath p) = false) :
    normalizePath (normalizePath p) = normalizePath p ∧
      normalizePath [] = ['.'] ∧ normalizePath ['.'] = ['.'] := by
  refine ⟨?_, by decide, by decide⟩
  by_cases hp : p = []
  · subst hp
    decide
  · rw [normalizePath_eq p hp] at h ⊢
    set pre := analyzePathPrefixInfo (stripExtendedLengthPfx p) with hpreE
    set allow := !(pre.isUnc || pre.hasLeadingSlash || pre.driveIsAbsolute)
      with hallowE
    obtain ⟨k, rcore, hrc, hka, hseg⟩ := resolvePathSegments_canon pre.remainder allow
    rw [hseg] at h ⊢
    have hrgood : ∀ s ∈ rcore.reverse, coreSeg s := by
      intro s hs
      exact hrc s (List.mem_reverse.mp hs)
    cases hunc : pre.isUnc with
    | true =>
      have hal : allow = false := by
        rw [hallowE, hunc]
        rfl
      have hk0 : k = 0 := hka hal
      subst hk0
      rw [show (List.replicate 0 dd : List JStr) = [] from rfl,
        List.nil_append] at h ⊢
      have hreb : rebuildNormalizedPath pre rcore.reverse =
          '/' :: '/' :: joinSlash rcore.reverse := by
        unfold rebuildNormalizedPath
        rw [hunc]
        rw [if_pos rfl]
      rw [hreb] at h ⊢
      unfold reparsesDifferently at h
      rw [Bool.or_eq_false_iff, Bool.or_eq_false_iff, Bool.or_eq_false_iff] at h
      obtain ⟨⟨⟨h1, h2⟩, h3⟩, h4⟩ := h
      have hne : rcore.reverse ≠ [] := by
        intro hcon
        rw [hcon] at h1
        exact absurd h1 (by decide)
      exact normalizePath_fix_unc rcore.reverse hne hrgood h2
    | false =>
      have hdrshape := pre_drive_shape (stripExtendedLengthPfx p)
      rw [← hpreE] at hdrshape
      rcases hdrshape with hdr | ⟨a, haL, hdr⟩
      · have habs : pre.driveIsAbsolute = false := by
          rw [hpreE]
          exact pre_empty_abs _ (by rw [← hpreE]; exact hdr)
        cases hls : pre.hasLeadingSlash with
        | true =>
          have hal : allow = false := by
            rw [hallowE, hunc, hls]
            simp
          have hk0 : k = 0 := hka hal
          subst hk0
          rw [show (List.replicate 0 dd : List JStr) = [] from rfl,
            List.nil_append] at h ⊢
          have hreb : rebuildNormalizedPath pre rcore.reverse =
              '/' :: joinSlash rcore.reverse := by
            unfold rebuildNormalizedPath
            rw [hunc, hdr, hls]
            rw [if_neg (by simp), if_neg (by simp), if_pos rfl]
          rw [hreb] at h ⊢
          unfold reparsesDifferently at h
          rw [Bool.or_eq_false_iff, Bool.or_eq_false_iff, Bool.or_eq_false_iff] at h
          obtain ⟨⟨⟨h1, h2⟩, h3⟩, h4⟩ := h
          have h4' : driveLike (joinSlash rcore.reverse) = false := h4
          exact normalizePath_fix_slash rcore.reverse hrgood h4'
        | false =>
          cases hsegE : (List.replicate k dd ++ rcore.reverse : List JStr) with
          | nil =>
            have hreb : rebuildNormalizedPath pre ([] : List JStr) = ['.'] := by
              unfold rebuildNormalizedPath
              rw [hunc, hdr, hls]
              rw [if_neg (by simp), if_neg (by simp), if_neg (by simp), if_pos rfl]
            rw [hreb]
            decide
          | cons s₀ rest =>
            rw [hsegE] at h
            have hreb : rebuildNormalizedPath pre (s₀ :: rest) =
                joinSlash (s₀ :: rest) := by
              unfold rebuildNormalizedPath
              rw [hunc, hdr, hls]
              rw [if_neg (by simp), if_neg (by simp), if_neg (by simp),
                if_neg (by simp)]
            rw [hreb] at h ⊢
            unfold reparsesDifferently at h
            rw [Bool.or_eq_false_iff, Bool.or_eq_false_iff, Bool.or_eq_false_iff] at h
            obtain ⟨⟨⟨h1, h2⟩, h3⟩, h4⟩ := h
            rw [← hsegE] at h3 ⊢
            exact normalizePath_fix_plain k rcore.reverse hrgood
              (by rw [hsegE]; simp) h3
      · have hD := (upperChar_spec a haL).1
        have hDup := (upperChar_spec a haL).2.1
        cases habs : pre.driveIsAbsolute with
        | true =>
          have hal : allow = false := by
            rw [hallowE, hunc, habs]
            simp
          have hk0 : k = 0 := hka hal
          subst hk0
          rw [show (List.replicate 0 dd : List JStr) = [] from rfl,
            List.nil_append] at h ⊢
          have hreb : rebuildNormalizedPath pre rcore.reverse =
              upperChar a :: ':' :: '/' :: joinSlash rcore.reverse := by
            unfold rebuildNormalizedPath
            rw [hunc, hdr, habs]
            rw [if_neg (by simp), if_pos (by simp), if_pos rfl]
            rfl
          rw [hreb] at h ⊢
          exact normalizePath_fix_driveabs (upperChar a) rcore.reverse hD hDup hrgood
        | false =>
          have hreb : rebuildNormalizedPath pre (List.replicate k dd ++ rcore.reverse) =
              upperChar a :: ':' ::
                joinSlash (List.replicate k dd ++ rcore.reverse) := by
            unfold rebuildNormalizedPath
            rw [hunc, hdr, habs]
            rw [if_neg (by simp), if_pos (by simp), if_neg (by simp)]
            cases hsegE : (List.replicate k dd ++ rcore.reverse : List JStr) with
            | nil =>
              rw [if_pos rfl]
              rfl
            | cons s₀ rest =>
              rw [if_neg (by simp)]
              rfl
          rw [hreb] at h ⊢
          exact normalizePath_fix_driverel (upperChar a) k rcore.reverse hD hDup hrgood

/-- Witness: a benign relative path satisfies the guard and the amended
idempotence theorem applies to it. -/
theorem normalizePath_idempotent_amended_witness :
    reparsesDifferently (normalizePath ['a', '/', 'b']) = false ∧
      (normalizePath (normalizePath ['a', '/', 'b']) = normalizePath ['a', '/', 'b'] ∧
        normalizePath [] = ['.'] ∧ normalizePath ['.'] = ['.']) :=
  ⟨by decide, normalizePath_idempotent_amended ['a', '/', 'b'] (by decide)⟩
